import Mathlib

/-!
Verification of the Sudoku CSP engine in `Assignment2/starter/main.py`.

The engine represents a puzzle as a matrix `_cells` of 81 domains, where a
domain is a Python string over the alphabet `"123456789"`.  We embed domains
as `List Char`, the cell matrix as `List (List (List Char))`, and each method
of the classes `Grid`, `FirstAvailable`, `MRV`, `AC3` and `Backtracking` as a
Lean function of the same name.  Python's in-place mutation of the grid is
embedded by explicit state passing: a method that mutates its grid argument
returns the new grid value.  The unbounded `while`/recursion of
`AC3.consistency` and `Backtracking.search` is embedded with an explicit fuel
parameter; sufficiency of a concrete fuel bound is proved below, which is the
termination argument for the source code.
-/

/-- A cell domain: a Python string, i.e. a list of characters. -/
abbrev Dom := List Char

/-- The matrix `Grid._cells`: a list of rows, each row a list of domains. -/
abbrev Cells := List (List Dom)

/-- A cell position `(row, column)`. -/
abbrev Pos := Nat × Nat

/-- `Grid._complete_domain = "123456789"` (main.py line 50). -/
def complete_domain : Dom := ['1','2','3','4','5','6','7','8','9']

/-- Auxiliary recursion for Python's `str.replace(old, '')` with a nonempty
pattern: scan left to right, dropping every (non-overlapping) occurrence of
`pat`.  The structural fuel counts scan steps; each step consumes at least
one character of `s`, so the fuel `s.length` used by `Str.replace` never
runs out (the fuel-exhaustion branch is unreachable there; see
`replaceAux_fuel` below). -/
def replaceAux (pat : Dom) : Nat → Dom → Dom
  | _, [] => []
  | 0, _ => []
  | fuel + 1, c :: rest =>
    if pat.isPrefixOf (c :: rest) then
      replaceAux pat fuel ((c :: rest).drop pat.length)
    else
      c :: replaceAux pat fuel rest

/-- Python `s.replace(pat, '')`: removes every occurrence of the substring
`pat` from `s`.  For the empty pattern Python returns `s` unchanged (when the
replacement is the empty string). -/
def Str.replace (s pat : Dom) : Dom :=
  if pat = [] then s else replaceAux pat s.length s

/-- Any fuel of at least `s.length` computes the same result, so the fuel in
`Str.replace` is irrelevant: the recursion is the plain left-to-right scan
of the source. -/
theorem replaceAux_fuel (pat : Dom) (hp : pat ≠ []) :
    ∀ (fuel : Nat) (s : Dom), s.length ≤ fuel →
      replaceAux pat fuel s = replaceAux pat s.length s := by
  have key : ∀ (fuel fuel' : Nat) (s : Dom), s.length ≤ fuel →
      s.length ≤ fuel' → replaceAux pat fuel s = replaceAux pat fuel' s := by
    intro fuel
    induction fuel with
    | zero =>
      intro fuel' s hs _
      have : s = [] := List.length_eq_zero.mp (Nat.le_zero.mp hs)
      subst this
      cases fuel' <;> rfl
    | succ k ih =>
      intro fuel' s hs hs'
      cases s with
      | nil => cases fuel' <;> rfl
      | cons c rest =>
        obtain ⟨m, rfl⟩ : ∃ m, fuel' = m + 1 := by
          cases fuel' with
          | zero => simp at hs'
          | succ m => exact ⟨m, rfl⟩
        simp only [replaceAux]
        have hpat : 0 < pat.length := List.length_pos.mpr hp
        split
        · refine ih m _ ?_ ?_ <;>
            simp only [List.length_drop, List.length_cons] at * <;> omega
        · have := ih m rest (by simp at hs; omega) (by simp at hs'; omega)
          rw [this]
  intro fuel s hs
  exact key fuel s.length s hs (Nat.le_refl _)

/-- `grid.get_cells()[i][j]` (main.py line 61-65): read one cell's domain.
Out-of-range reads are given the harmless default `[]`; all uses below are
in range. -/
def Grid.get_cell (g : Cells) (i j : Nat) : Dom :=
  (g.getD i []).getD j []

/-- `grid.get_cells()[i][j] = v`: write one cell's domain. -/
def Grid.set_cell (g : Cells) (i j : Nat) (v : Dom) : Cells :=
  g.set i ((g.getD i []).set j v)

/-- Loop body state of `Grid.read_file` (main.py lines 97-109): `i` counts the
characters consumed so far, `row` is the row being assembled, `cells` the rows
already appended.  A `'.'` becomes the full domain, any other character a
singleton domain; every time `i` becomes divisible by 9 the row is appended.
A trailing partial row is silently dropped, exactly as in the source. -/
def Grid.readFileAux : List Char → Nat → List Dom → Cells → Cells
  | [], _, _, cells => cells
  | p :: rest, i, row, cells =>
    let row' := row ++ [if p = '.' then complete_domain else [p]]
    let i' := i + 1
    if i' % 9 = 0 then
      Grid.readFileAux rest i' [] (cells ++ [row'])
    else
      Grid.readFileAux rest i' row' cells

/-- `Grid.read_file` (main.py lines 73-109). -/
def Grid.read_file (s : List Char) : Cells :=
  Grid.readFileAux s 0 [] []

/-- `Grid.is_solved` (main.py lines 162-170): every domain has size 1. -/
def Grid.is_solved (g : Cells) : Bool :=
  (List.range 9).all fun i => (List.range 9).all fun j =>
    (Grid.get_cell g i j).length == 1

/-- Total number of candidate symbols left on the grid; the termination
measure for propagation and search. -/
def totalSize (g : Cells) : Nat :=
  (g.map fun row => (row.map List.length).sum).sum

/-- All 81 positions in row-major order, the scan order of every double loop
`for i in range(9): for j in range(9)` in the source. -/
def allPositions : List Pos :=
  (List.range 9).flatMap fun i => (List.range 9).map fun j => (i, j)

/-- `FirstAvailable.select_variable` (main.py lines 185-191): the first
position in row-major order whose domain is larger than one; Python returns
`None` (falling off the loops) when there is no such cell. -/
def FirstAvailable.select_variable (g : Cells) : Option Pos :=
  allPositions.find? fun p => 1 < (Grid.get_cell g p.1 p.2).length

/-- One iteration of the `MRV.select_variable` scan (main.py lines 202-207):
keep the incumbent unless this cell's domain is larger than one and strictly
smaller than the incumbent's size. -/
def MRV.scanStep (g : Cells) (st : Pos × Nat) (p : Pos) : Pos × Nat :=
  if 1 < (Grid.get_cell g p.1 p.2).length ∧ (Grid.get_cell g p.1 p.2).length < st.2 then
    (p, (Grid.get_cell g p.1 p.2).length)
  else st

/-- `MRV.select_variable` (main.py lines 197-210): row-major scan starting
from the sentinel `current_lowest = (10, 10)` and `smallest_domain = 10`;
the sentinel is returned unchanged when no cell qualifies. -/
def MRV.select_variable (g : Cells) : Pos :=
  (allPositions.foldl (MRV.scanStep g) ((10, 10), 10)).1

-- Basic facts about `Str.replace`.

theorem replaceAux_sublist (pat : Dom) :
    ∀ (fuel : Nat) (s : Dom), (replaceAux pat fuel s).Sublist s := by
  intro fuel
  induction fuel with
  | zero =>
    intro s
    cases s <;> simp [replaceAux]
  | succ k ih =>
    intro s
    cases s with
    | nil => simp [replaceAux]
    | cons c rest =>
      simp only [replaceAux]
      split
      · exact (ih _).trans (List.drop_sublist _ _)
      · exact (ih rest).cons₂ c

theorem Str.replace_sublist (s pat : Dom) : (Str.replace s pat).Sublist s := by
  unfold Str.replace
  split
  · exact List.Sublist.refl s
  · exact replaceAux_sublist pat s.length s

theorem Str.replace_length_le (s pat : Dom) :
    (Str.replace s pat).length ≤ s.length :=
  (Str.replace_sublist s pat).length_le

theorem Str.replace_subset (s pat : Dom) :
    ∀ x ∈ Str.replace s pat, x ∈ s :=
  fun _ hx => (Str.replace_sublist s pat).subset hx

/-- Removing the one-character pattern `[w]` removes every occurrence of
`w`. -/
theorem replaceAux_single_not_mem (w : Char) :
    ∀ (fuel : Nat) (s : Dom), w ∉ replaceAux [w] fuel s := by
  intro fuel
  induction fuel with
  | zero =>
    intro s
    cases s <;> simp [replaceAux]
  | succ k ih =>
    intro s
    cases s with
    | nil => simp [replaceAux]
    | cons c rest =>
      simp only [replaceAux]
      split
      · exact ih _
      · rename_i hpre
        intro hmem
        rcases List.mem_cons.mp hmem with h | h
        · apply hpre
          subst h
          simp [List.isPrefixOf]
        · exact ih rest h

theorem Str.replace_single_not_mem (s : Dom) (w : Char) :
    w ∉ Str.replace s [w] := by
  unfold Str.replace
  split
  · simp_all
  · exact replaceAux_single_not_mem w s.length s

/-- A nonempty sublist of a singleton is that singleton. -/
theorem sublist_singleton_cases {x : Char} {l : Dom} (h : l.Sublist [x]) :
    l = [] ∨ l = [x] := by
  cases l with
  | nil => exact Or.inl rfl
  | cons a t =>
    right
    rcases List.sublist_cons_iff.mp h with h' | ⟨l', hl', hsub⟩
    · exact absurd (List.Sublist.length_le h') (by simp)
    · cases hl'
      cases List.sublist_nil.mp hsub
      rfl

-- Read/write lemmas for the cell matrix.

theorem List.getD_set_self {α : Type _} (l : List α) (i : Nat) (v d : α)
    (h : i < l.length) : (l.set i v).getD i d = v := by
  induction l generalizing i with
  | nil => simp at h
  | cons a t ih =>
    cases i with
    | zero => simp [List.getD]
    | succ n =>
      simp only [List.set, List.getD_cons_succ]
      exact ih n (by simpa using h)

theorem List.getD_set_ne {α : Type _} (l : List α) {i j : Nat} (v d : α)
    (h : i ≠ j) : (l.set i v).getD j d = l.getD j d := by
  induction l generalizing i j with
  | nil => simp
  | cons a t ih =>
    cases i with
    | zero =>
      cases j with
      | zero => exact absurd rfl h
      | succ m => simp [List.getD]
    | succ n =>
      cases j with
      | zero => simp [List.getD]
      | succ m =>
        simp only [List.set, List.getD_cons_succ]
        exact ih (fun hc => h (by rw [hc]))

theorem List.set_getD_self {α : Type _} (l : List α) (i : Nat) (d : α) :
    l.set i (l.getD i d) = l := by
  induction l generalizing i with
  | nil => simp
  | cons a t ih =>
    cases i with
    | zero => simp [List.getD]
    | succ n => simp only [List.set, List.getD_cons_succ]; rw [ih]

theorem List.set_oor {α : Type _} (l : List α) (i : Nat) (v : α)
    (h : l.length ≤ i) : l.set i v = l := by
  induction l generalizing i with
  | nil => simp
  | cons a t ih =>
    cases i with
    | zero => simp at h
    | succ n => simp only [List.set]; rw [ih n (by simpa using h)]

theorem Grid.get_set_same (g : Cells) (i j : Nat) (v : Dom)
    (hi : i < g.length) (hj : j < (g.getD i []).length) :
    Grid.get_cell (Grid.set_cell g i j v) i j = v := by
  unfold Grid.get_cell Grid.set_cell
  rw [List.getD_set_self g i _ _ hi]
  exact List.getD_set_self _ j v [] hj

theorem Grid.get_set_ne (g : Cells) {i j a b : Nat} (v : Dom)
    (h : (a, b) ≠ (i, j)) :
    Grid.get_cell (Grid.set_cell g i j v) a b = Grid.get_cell g a b := by
  unfold Grid.get_cell Grid.set_cell
  by_cases hia : i = a
  · subst hia
    have hjb : j ≠ b := fun hc => h (by rw [hc])
    by_cases hrange : i < g.length
    · rw [List.getD_set_self g i _ _ hrange]
      exact List.getD_set_ne _ v [] hjb
    · rw [List.set_oor g i _ (Nat.le_of_not_lt hrange)]
  · rw [List.getD_set_ne g _ [] hia]

/-- Either the write lands in range (and reads back as `v`), or the grid is
unchanged. -/
theorem Grid.set_cell_cases (g : Cells) (i j : Nat) (v : Dom) :
    (i < g.length ∧ j < (g.getD i []).length) ∨ Grid.set_cell g i j v = g := by
  by_cases hi : i < g.length
  · by_cases hj : j < (g.getD i []).length
    · exact Or.inl ⟨hi, hj⟩
    · right
      unfold Grid.set_cell
      rw [List.set_oor _ j v (Nat.le_of_not_lt hj), List.set_getD_self]
  · right
    unfold Grid.set_cell
    exact List.set_oor g i _ (Nat.le_of_not_lt hi)

theorem Grid.length_set_cell (g : Cells) (i j : Nat) (v : Dom) :
    (Grid.set_cell g i j v).length = g.length := by
  unfold Grid.set_cell; simp

theorem Grid.row_length_set_cell (g : Cells) (i j : Nat) (v : Dom) (a : Nat) :
    ((Grid.set_cell g i j v).getD a []).length = (g.getD a []).length := by
  unfold Grid.set_cell
  by_cases hia : i = a
  · subst hia
    by_cases hi : i < g.length
    · rw [List.getD_set_self g i _ _ hi]; simp
    · rw [List.set_oor g i _ (Nat.le_of_not_lt hi)]
  · rw [List.getD_set_ne g _ [] hia]

-- totalSize lemmas.

theorem List.sum_set_nat (l : List Nat) (i : Nat) (x : Nat)
    (h : i < l.length) : (l.set i x).sum + l.getD i 0 = l.sum + x := by
  induction l generalizing i with
  | nil => simp at h
  | cons a t ih =>
    cases i with
    | zero => simp [List.getD]; omega
    | succ n =>
      simp only [List.set, List.sum_cons, List.getD_cons_succ]
      have := ih n (by simpa using h)
      omega

theorem List.getD_map_zero {α β : Type _} (f : α → β) (l : List α) (i : Nat)
    (d : α) : (l.map f).getD i (f d) = f (l.getD i d) := by
  induction l generalizing i with
  | nil => simp [List.getD]
  | cons a t ih =>
    cases i with
    | zero => simp [List.getD]
    | succ n => simp only [List.getD_cons_succ, List.map_cons]; exact ih n

/-- Writing `v` over a cell changes `totalSize` by at most the difference of
lengths (with equality when the write is in range). -/
theorem totalSize_set_cell_le (g : Cells) (i j : Nat) (v : Dom) :
    totalSize (Grid.set_cell g i j v) + (Grid.get_cell g i j).length ≤
      totalSize g + v.length := by
  by_cases hi : i < g.length
  · by_cases hj : j < (g.getD i []).length
    · unfold totalSize Grid.set_cell Grid.get_cell
      have hmap : (g.set i ((g.getD i []).set j v)).map
            (fun row => (row.map List.length).sum)
          = (g.map fun row => (row.map List.length).sum).set i
              (((g.getD i []).map List.length).set j v.length).sum := by
        simp [List.map_set]
      rw [hmap]
      have h1 := List.sum_set_nat (g.map fun row => (row.map List.length).sum) i
        (((g.getD i []).map List.length).set j v.length).sum (by simpa using hi)
      have h2 := List.sum_set_nat ((g.getD i []).map List.length) j v.length
        (by simpa using hj)
      have hg1 : (g.map fun row => (row.map List.length).sum).getD i 0
          = ((g.getD i []).map List.length).sum := by
        have := List.getD_map_zero (fun row : List Dom => (row.map List.length).sum) g i []
        simpa using this
      have hg2 : ((g.getD i []).map List.length).getD j 0
          = ((g.getD i []).getD j []).length := by
        have := List.getD_map_zero List.length (g.getD i []) j []
        simpa using this
      omega
    · have hcell : Grid.get_cell g i j = [] := by
        unfold Grid.get_cell
        exact List.getD_eq_default _ _ (Nat.le_of_not_lt hj)
      have heq : Grid.set_cell g i j v = g := by
        unfold Grid.set_cell
        rw [List.set_oor _ j v (Nat.le_of_not_lt hj), List.set_getD_self]
      rw [heq, hcell]
      simp
  · have hcell : Grid.get_cell g i j = [] := by
      unfold Grid.get_cell
      rw [List.getD_eq_default _ _ (Nat.le_of_not_lt hi)]
      simp [List.getD]
    have heq : Grid.set_cell g i j v = g := by
      unfold Grid.set_cell
      exact List.set_oor g i _ (Nat.le_of_not_lt hi)
    rw [heq, hcell]
    simp

-- The AC3 engine.

/-- The 3x3 box containing `(row, column)` in the source's iteration order
(main.py lines 266-270): `row_init = (row // 3) * 3`,
`column_init = (column // 3) * 3`, rows outer, columns inner. -/
def boxPositions (row column : Nat) : List Pos :=
  (List.range 3).flatMap fun a => (List.range 3).map fun b =>
    (row / 3 * 3 + a, column / 3 * 3 + b)

/-- The common loop of `AC3.remove_domain_row` / `_column` / `_unit`
(main.py lines 217-283): for each peer position `p` in `ps`, remove the
domain of `(r, c)` (re-read from the current grid, as the source does) from
`p`'s domain; fail as soon as a domain would become empty (the failing write,
and the remaining peers, are not performed); collect in `acc` the peers whose
domain just shrank from more than one candidate to exactly one. -/
def AC3.removeAux (g : Cells) (r c : Nat) (acc : List Pos) :
    List Pos → Cells × Option (List Pos)
  | [] => (g, some acc)
  | p :: ps =>
    let newDomain := Str.replace (Grid.get_cell g p.1 p.2) (Grid.get_cell g r c)
    if newDomain.length = 0 then (g, none)
    else
      AC3.removeAux (Grid.set_cell g p.1 p.2 newDomain) r c
        (if newDomain.length = 1 ∧ 1 < (Grid.get_cell g p.1 p.2).length then
          acc ++ [p] else acc) ps

/-- `AC3.remove_domain_row` (main.py lines 217-236): peers are the cells
`(row, j)` of the same row with `j ≠ column`, in increasing `j` order.
The failure flag `(None, True)` of the source is embedded as `none`,
success `(variables_assigned, False)` as `some variables_assigned`; the
first component is the (partially) mutated grid. -/
def AC3.remove_domain_row (g : Cells) (row column : Nat) :
    Cells × Option (List Pos) :=
  AC3.removeAux g row column []
    (((List.range 9).filter fun j => j != column).map fun j => (row, j))

/-- `AC3.remove_domain_column` (main.py lines 238-257): peers are the cells
`(j, column)` with `j ≠ row`. -/
def AC3.remove_domain_column (g : Cells) (row column : Nat) :
    Cells × Option (List Pos) :=
  AC3.removeAux g row column []
    (((List.range 9).filter fun j => j != row).map fun j => (j, column))

/-- `AC3.remove_domain_unit` (main.py lines 259-283): peers are the cells of
the 3x3 box other than `(row, column)` itself. -/
def AC3.remove_domain_unit (g : Cells) (row column : Nat) :
    Cells × Option (List Pos) :=
  AC3.removeAux g row column []
    ((boxPositions row column).filter fun p => p != (row, column))

/-- One iteration of the `while Q` loop of `AC3.consistency`
(main.py lines 322-335): run all three removal passes in order (the source
calls all three before checking the failure flags), then either report
failure or the list of newly assigned variables to enqueue, in row, column,
unit order. -/
def AC3.process (g : Cells) (v : Pos) : Cells × Option (List Pos) :=
  match AC3.remove_domain_row g v.1 v.2 with
  | (g1, r1) =>
    match AC3.remove_domain_column g1 v.1 v.2 with
    | (g2, r2) =>
      match AC3.remove_domain_unit g2 v.1 v.2 with
      | (g3, r3) =>
        match r1, r2, r3 with
        | some a, some b, some c => (g3, some (a ++ b ++ c))
        | _, _, _ => (g3, none)

/-- Fuel-indexed embedding of `AC3.consistency` (main.py lines 301-336).
`Q.pop()` takes the last element of the Python list; new work is appended at
the end.  The result is the mutated grid together with the returned flag
(`false` for the source's `0` = contradiction, `true` for `1` = success);
`none` means the fuel ran out, which the bound `consBound` below rules out. -/
def AC3.consistencyF : Nat → Cells → List Pos → Option (Cells × Bool)
  | 0, _, _ => none
  | n + 1, g, Q =>
    match Q.getLast? with
    | none => some (g, true)
    | some v =>
      match AC3.process g v with
      | (g', none) => some (g', false)
      | (g', some adds) => AC3.consistencyF n g' (Q.dropLast ++ adds)

/-- Fuel that always suffices for `AC3.consistencyF` (proved below). -/
def consBound (g : Cells) (Q : List Pos) : Nat :=
  2 * totalSize g + Q.length + 1

/-- `AC3.consistency` (main.py lines 301-336) as a total function: the
mutated grid and the success flag. -/
def AC3.consistency (g : Cells) (Q : List Pos) : Cells × Bool :=
  (AC3.consistencyF (consBound g Q) g Q).getD (g, false)

/-- The queue seeded by `AC3.pre_process_consistency` (main.py lines 293-297):
all, in row-major order, positions whose domain is a singleton. -/
def seedQ (g : Cells) : List Pos :=
  allPositions.filter fun p => (Grid.get_cell g p.1 p.2).length == 1

/-- `AC3.pre_process_consistency` (main.py lines 285-298): runs
`AC3.consistency` on the seeded queue and returns only the mutated grid —
the source drops the success flag (`self.consistency(grid,Q)` on line 298 is
a bare statement and the method returns `None`). -/
def AC3.pre_process_consistency (g : Cells) : Cells :=
  (AC3.consistency g (seedQ g)).1

-- Lemmas about the removal loop.

theorem Grid.get_set_cases (g : Cells) (i j : Nat) (v : Dom) (a b : Nat) :
    Grid.get_cell (Grid.set_cell g i j v) a b = v ∨
      Grid.get_cell (Grid.set_cell g i j v) a b = Grid.get_cell g a b := by
  by_cases h : (a, b) = (i, j)
  · rcases Grid.set_cell_cases g i j v with ⟨hi, hj⟩ | heq
    · obtain ⟨rfl, rfl⟩ := Prod.mk.injEq .. ▸ h
      exact Or.inl (Grid.get_set_same g a b v hi hj)
    · exact Or.inr (by rw [heq])
  · exact Or.inr (Grid.get_set_ne g v h)

theorem Grid.get_cell_ne_nil_range (g : Cells) (a b : Nat)
    (h : Grid.get_cell g a b ≠ []) :
    a < g.length ∧ b < (g.getD a []).length := by
  constructor
  · by_contra ha
    apply h
    unfold Grid.get_cell
    rw [List.getD_eq_default _ _ (Nat.le_of_not_lt ha)]
    simp [List.getD]
  · by_contra hb
    exact h (List.getD_eq_default _ _ (Nat.le_of_not_lt hb))

theorem AC3.removeAux_untouched {g : Cells} {r c : Nat} {acc ps : List Pos}
    {g' : Cells} {res : Option (List Pos)}
    (h : AC3.removeAux g r c acc ps = (g', res)) :
    ∀ q : Pos, q ∉ ps → Grid.get_cell g' q.1 q.2 = Grid.get_cell g q.1 q.2 := by
  induction ps generalizing g acc with
  | nil =>
    simp only [AC3.removeAux] at h
    cases h
    intro q _
    rfl
  | cons p rest ih =>
    intro q hq
    simp only [AC3.removeAux] at h
    split at h
    · cases h; rfl
    · have hqp : q ≠ p := fun hc => hq (hc ▸ List.mem_cons_self p rest)
      have hqrest : q ∉ rest := fun hc => hq (List.mem_cons_of_mem p hc)
      rw [ih h q hqrest]
      exact Grid.get_set_ne g _ (by simpa using hqp)

theorem AC3.removeAux_sublist {g : Cells} {r c : Nat} {acc ps : List Pos}
    {g' : Cells} {res : Option (List Pos)}
    (h : AC3.removeAux g r c acc ps = (g', res)) :
    ∀ a b : Nat, (Grid.get_cell g' a b).Sublist (Grid.get_cell g a b) := by
  induction ps generalizing g acc with
  | nil =>
    simp only [AC3.removeAux] at h
    cases h
    intro a b
    exact List.Sublist.refl _
  | cons p rest ih =>
    intro a b
    simp only [AC3.removeAux] at h
    split at h
    · cases h; exact List.Sublist.refl _
    · refine (ih h a b).trans ?_
      rcases Grid.set_cell_cases g p.1 p.2
        (Str.replace (Grid.get_cell g p.1 p.2) (Grid.get_cell g r c)) with
        ⟨hi, hj⟩ | heq
      · by_cases hq : (a, b) = (p.1, p.2)
        · have ha : a = p.1 := congrArg Prod.fst hq
          have hb : b = p.2 := congrArg Prod.snd hq
          subst ha; subst hb
          rw [Grid.get_set_same _ _ _ _ hi hj]
          exact Str.replace_sublist _ _
        · rw [Grid.get_set_ne g _ hq]
      · rw [heq]

theorem AC3.removeAux_dims {g : Cells} {r c : Nat} {acc ps : List Pos}
    {g' : Cells} {res : Option (List Pos)}
    (h : AC3.removeAux g r c acc ps = (g', res)) :
    g'.length = g.length ∧
      ∀ a : Nat, ((g'.getD a []).length = (g.getD a []).length) := by
  induction ps generalizing g acc with
  | nil =>
    simp only [AC3.removeAux] at h
    cases h
    exact ⟨rfl, fun _ => rfl⟩
  | cons p rest ih =>
    simp only [AC3.removeAux] at h
    split at h
    · cases h; exact ⟨rfl, fun _ => rfl⟩
    · obtain ⟨h1, h2⟩ := ih h
      refine ⟨h1.trans (Grid.length_set_cell ..), fun a => ?_⟩
      rw [h2 a, Grid.row_length_set_cell]

theorem AC3.removeAux_nonempty {g : Cells} {r c : Nat} {acc ps : List Pos}
    {g' : Cells} {res : Option (List Pos)}
    (h : AC3.removeAux g r c acc ps = (g', res)) :
    ∀ a b : Nat, Grid.get_cell g a b ≠ [] → Grid.get_cell g' a b ≠ [] := by
  induction ps generalizing g acc with
  | nil =>
    simp only [AC3.removeAux] at h
    cases h
    exact fun a b hne => hne
  | cons p rest ih =>
    intro a b hne
    simp only [AC3.removeAux] at h
    split at h
    · cases h; exact hne
    · rename_i hguard
      refine ih h a b ?_
      rcases Grid.get_set_cases g p.1 p.2
        (Str.replace (Grid.get_cell g p.1 p.2) (Grid.get_cell g r c)) a b with
        hcase | hcase
      · rw [hcase]
        intro hc
        exact hguard (by rw [hc]; rfl)
      · rw [hcase]; exact hne

theorem AC3.removeAux_size_any {g : Cells} {r c : Nat} {acc ps : List Pos}
    {g' : Cells} {res : Option (List Pos)}
    (h : AC3.removeAux g r c acc ps = (g', res)) :
    totalSize g' ≤ totalSize g := by
  induction ps generalizing g acc with
  | nil =>
    simp only [AC3.removeAux] at h
    cases h
    exact Nat.le_refl _
  | cons p rest ih =>
    simp only [AC3.removeAux] at h
    split at h
    · cases h; exact Nat.le_refl _
    · refine (ih h).trans ?_
      have h1 := totalSize_set_cell_le g p.1 p.2
        (Str.replace (Grid.get_cell g p.1 p.2) (Grid.get_cell g r c))
      have h2 := Str.replace_length_le (Grid.get_cell g p.1 p.2) (Grid.get_cell g r c)
      omega

theorem AC3.removeAux_size_success {g : Cells} {r c : Nat} {acc ps : List Pos}
    {g' : Cells} {out : List Pos}
    (h : AC3.removeAux g r c acc ps = (g', some out)) :
    totalSize g' + out.length ≤ totalSize g + acc.length := by
  induction ps generalizing g acc with
  | nil =>
    simp only [AC3.removeAux] at h
    cases h
    simp
  | cons p rest ih =>
    simp only [AC3.removeAux] at h
    split at h
    · cases h
    · rename_i hguard
      have h1 := totalSize_set_cell_le g p.1 p.2
        (Str.replace (Grid.get_cell g p.1 p.2) (Grid.get_cell g r c))
      have h2 := Str.replace_length_le (Grid.get_cell g p.1 p.2) (Grid.get_cell g r c)
      have h3 := ih h
      split at h3
      · rename_i hcond
        simp only [List.length_append, List.length_cons, List.length_nil] at h3
        obtain ⟨hc1, hc2⟩ := hcond
        omega
      · omega

theorem Str.replace_singleton_self (w : Char) : Str.replace [w] [w] = [] := by
  rcases sublist_singleton_cases (Str.replace_sublist [w] [w]) with h | h
  · exact h
  · have hmem := Str.replace_single_not_mem [w] w
    rw [h] at hmem
    simp at hmem

/-- On success, a cell that was already a singleton keeps its exact domain. -/
theorem AC3.removeAux_singleton {g : Cells} {r c : Nat} {acc ps : List Pos}
    {g' : Cells} {out : List Pos}
    (h : AC3.removeAux g r c acc ps = (g', some out)) :
    ∀ a b : Nat, (Grid.get_cell g a b).length = 1 →
      Grid.get_cell g' a b = Grid.get_cell g a b := by
  induction ps generalizing g acc with
  | nil =>
    simp only [AC3.removeAux] at h
    cases h
    exact fun a b _ => rfl
  | cons p rest ih =>
    intro a b hone
    simp only [AC3.removeAux] at h
    split at h
    · cases h
    · rename_i hguard
      by_cases hq : (a, b) = (p.1, p.2)
      · have hp1 : p.1 = a := (congrArg Prod.fst hq).symm
        have hp2 : p.2 = b := (congrArg Prod.snd hq).symm
        rw [hp1, hp2] at h hguard
        obtain ⟨x, hx⟩ : ∃ x, Grid.get_cell g a b = [x] :=
          List.length_eq_one.mp hone
        have hsub := Str.replace_sublist (Grid.get_cell g a b) (Grid.get_cell g r c)
        rw [hx] at hsub
        rcases sublist_singleton_cases hsub with hc | hc
        · rw [hx, hc] at hguard
          simp at hguard
        · have hnew : Str.replace (Grid.get_cell g a b) (Grid.get_cell g r c)
              = Grid.get_cell g a b := by
            rw [hx, hc]
          rw [hnew] at h
          have hrange := Grid.get_cell_ne_nil_range g a b (by rw [hx]; simp)
          have hset : Grid.get_cell
              (Grid.set_cell g a b (Grid.get_cell g a b)) a b
              = Grid.get_cell g a b :=
            Grid.get_set_same g a b _ hrange.1 hrange.2
          rw [ih h a b (by rw [hset]; exact hone), hset]
      · have hset : Grid.get_cell (Grid.set_cell g p.1 p.2
            (Str.replace (Grid.get_cell g p.1 p.2) (Grid.get_cell g r c))) a b
            = Grid.get_cell g a b := Grid.get_set_ne g _ hq
        rw [ih h a b (by rw [hset]; exact hone), hset]

/-- On success the accumulator is contained in the output. -/
theorem AC3.removeAux_acc_subset {g : Cells} {r c : Nat} {acc ps : List Pos}
    {g' : Cells} {out : List Pos}
    (h : AC3.removeAux g r c acc ps = (g', some out)) :
    ∀ q ∈ acc, q ∈ out := by
  induction ps generalizing g acc with
  | nil =>
    simp only [AC3.removeAux] at h
    cases h
    exact fun q hq => hq
  | cons p rest ih =>
    intro q hq
    simp only [AC3.removeAux] at h
    split at h
    · cases h
    · refine ih h q ?_
      split
      · exact List.mem_append_left _ hq
      · exact hq

/-- On success, every cell that ends up a singleton either already had exactly
that singleton domain, or its position is in the output list of newly
assigned variables. -/
theorem AC3.removeAux_new_singleton {g : Cells} {r c : Nat} {acc ps : List Pos}
    {g' : Cells} {out : List Pos}
    (h : AC3.removeAux g r c acc ps = (g', some out)) :
    ∀ q : Pos, (Grid.get_cell g' q.1 q.2).length = 1 →
      Grid.get_cell g' q.1 q.2 = Grid.get_cell g q.1 q.2 ∨ q ∈ out := by
  induction ps generalizing g acc with
  | nil =>
    simp only [AC3.removeAux] at h
    cases h
    exact fun q _ => Or.inl rfl
  | cons p rest ih =>
    intro q hone
    simp only [AC3.removeAux] at h
    split at h
    · cases h
    · rename_i hguard
      by_cases hq : (q.1, q.2) = (p.1, p.2)
      · have hpq : p = q :=
          Prod.ext (congrArg Prod.fst hq).symm (congrArg Prod.snd hq).symm
        rw [hpq] at h hguard
        rcases ih h q hone with hcase | hcase
        · -- the interesting case: q is the cell written at this step
          have hrange : q.1 < g.length ∧ q.2 < (g.getD q.1 []).length := by
            refine Grid.get_cell_ne_nil_range g q.1 q.2 ?_
            intro hnil
            apply hguard
            have hsub := Str.replace_sublist (Grid.get_cell g q.1 q.2)
              (Grid.get_cell g r c)
            rw [hnil] at hsub
            rw [hnil, List.sublist_nil.mp hsub]
            rfl
          have hset := Grid.get_set_same g q.1 q.2
            (Str.replace (Grid.get_cell g q.1 q.2) (Grid.get_cell g r c))
            hrange.1 hrange.2
          rw [hcase, hset] at hone ⊢
          split at h
          · exact Or.inr (AC3.removeAux_acc_subset h q
              (List.mem_append_right _ (List.mem_singleton_self q)))
          · rename_i hcond
            left
            have hlen1 : (Grid.get_cell g q.1 q.2).length = 1 := by
              rcases Nat.lt_or_ge 1 (Grid.get_cell g q.1 q.2).length with hgt | hge
              · exact absurd ⟨hone, hgt⟩ hcond
              · have := Str.replace_length_le (Grid.get_cell g q.1 q.2)
                  (Grid.get_cell g r c)
                omega
            obtain ⟨x, hx⟩ := List.length_eq_one.mp hlen1
            have hsub := Str.replace_sublist (Grid.get_cell g q.1 q.2)
              (Grid.get_cell g r c)
            rw [hx] at hsub
            rcases sublist_singleton_cases hsub with hcc | hcc
            · rw [hx, hcc] at hguard
              simp at hguard
            · rw [hx, hcc]
        · exact Or.inr hcase
      · rcases ih h q hone with hcase | hcase
        · left
          rw [hcase]
          exact Grid.get_set_ne g _ hq
        · exact Or.inr hcase

/-- On success, the assigned value `w` of cell `(r, c)` has been removed from
the domain of every processed peer. -/
theorem AC3.removeAux_removed {g : Cells} {r c : Nat} {acc ps : List Pos}
    {g' : Cells} {out : List Pos} {w : Char}
    (h : AC3.removeAux g r c acc ps = (g', some out))
    (hval : Grid.get_cell g r c = [w]) (hrc : (r, c) ∉ ps) :
    ∀ p ∈ ps, w ∉ Grid.get_cell g' p.1 p.2 := by
  induction ps generalizing g acc with
  | nil => simp
  | cons p0 rest ih =>
    intro p hp
    simp only [AC3.removeAux] at h
    split at h
    · cases h
    · rename_i hguard
      have hp0rc : p0 ≠ (r, c) := by
        intro hc
        exact hrc (by rw [← hc]; exact List.mem_cons_self p0 rest)
      have hval1 : Grid.get_cell (Grid.set_cell g p0.1 p0.2
          (Str.replace (Grid.get_cell g p0.1 p0.2) (Grid.get_cell g r c)))
          r c = Grid.get_cell g r c := by
        refine Grid.get_set_ne g _ ?_
        intro hc
        apply hp0rc
        exact Prod.ext (congrArg Prod.fst hc.symm) (congrArg Prod.snd hc.symm)
      rcases List.mem_cons.mp hp with hpp0 | hprest
      · subst hpp0
        by_cases hpr : p ∈ rest
        · exact ih h (hval1.trans hval) (fun hc => hrc (List.mem_cons_of_mem _ hc)) p hpr
        · -- p is processed only here; its new domain lacks w and only shrinks
          have hnotw : w ∉ Grid.get_cell (Grid.set_cell g p.1 p.2
              (Str.replace (Grid.get_cell g p.1 p.2) (Grid.get_cell g r c)))
              p.1 p.2 := by
            have hrange : p.1 < g.length ∧ p.2 < (g.getD p.1 []).length := by
              refine Grid.get_cell_ne_nil_range g p.1 p.2 ?_
              intro hnil
              apply hguard
              have hsub := Str.replace_sublist (Grid.get_cell g p.1 p.2)
                (Grid.get_cell g r c)
              rw [hnil] at hsub
              rw [hnil, List.sublist_nil.mp hsub]
              rfl
            rw [Grid.get_set_same g p.1 p.2 _ hrange.1 hrange.2, hval]
            exact Str.replace_single_not_mem _ w
          intro hmem
          exact hnotw ((AC3.removeAux_sublist h p.1 p.2).subset hmem)
      · exact ih h (hval1.trans hval)
          (fun hc => hrc (List.mem_cons_of_mem _ hc)) p hprest

/-- If some unprocessed peer currently holds exactly the assigned singleton
value of `(r, c)`, the removal loop must fail. -/
theorem AC3.removeAux_dup_fails {g : Cells} {r c : Nat} {acc ps : List Pos}
    {w : Char}
    (hval : Grid.get_cell g r c = [w]) (hrc : (r, c) ∉ ps)
    (hdup : ∃ p ∈ ps, Grid.get_cell g p.1 p.2 = [w]) :
    (AC3.removeAux g r c acc ps).2 = none := by
  induction ps generalizing g acc with
  | nil => simp at hdup
  | cons p0 rest ih =>
    obtain ⟨p, hp, hpw⟩ := hdup
    simp only [AC3.removeAux]
    split
    · rfl
    · rename_i hguard
      rcases List.mem_cons.mp hp with hpp0 | hprest
      · subst hpp0
        exfalso
        apply hguard
        rw [hpw, hval, Str.replace_singleton_self]
        rfl
      · have hp0rc : p0 ≠ (r, c) := by
          intro hc
          exact hrc (by rw [← hc]; exact List.mem_cons_self p0 rest)
        have hp0p : p ≠ p0 := by
          intro hc
          subst hc
          apply hguard
          rw [hpw, hval, Str.replace_singleton_self]
          rfl
        have hval1 : Grid.get_cell (Grid.set_cell g p0.1 p0.2
            (Str.replace (Grid.get_cell g p0.1 p0.2) (Grid.get_cell g r c)))
            r c = Grid.get_cell g r c := by
          refine Grid.get_set_ne g _ ?_
          intro hc
          apply hp0rc
          exact Prod.ext (congrArg Prod.fst hc.symm) (congrArg Prod.snd hc.symm)
        have hpw1 : Grid.get_cell (Grid.set_cell g p0.1 p0.2
            (Str.replace (Grid.get_cell g p0.1 p0.2) (Grid.get_cell g r c)))
            p.1 p.2 = [w] := by
          rw [Grid.get_set_ne g _ ?_]
          · exact hpw
          · intro hc
            apply hp0p
            exact Prod.ext (congrArg Prod.fst hc) (congrArg Prod.snd hc)
        exact ih (hval1.trans hval)
          (fun hc => hrc (List.mem_cons_of_mem _ hc)) ⟨p, hprest, hpw1⟩

-- Unit structure of the 9x9 grid.

/-- Two positions lie in the same row. -/
abbrev same_row (p q : Pos) : Prop := p.1 = q.1

/-- Two positions lie in the same column. -/
abbrev same_column (p q : Pos) : Prop := p.2 = q.2

/-- Two positions lie in the same 3x3 box. -/
abbrev same_box (p q : Pos) : Prop := p.1 / 3 = q.1 / 3 ∧ p.2 / 3 = q.2 / 3

/-- Two positions are peers: they share a row, a column or a box. -/
abbrev sameUnit (p q : Pos) : Prop :=
  same_row p q ∨ same_column p q ∨ same_box p q

/-- A position on the 9x9 board. -/
abbrev inRange (p : Pos) : Prop := p.1 < 9 ∧ p.2 < 9

theorem sameUnit_symm {p q : Pos} (h : sameUnit p q) : sameUnit q p := by
  rcases h with h | h | h
  · exact Or.inl h.symm
  · exact Or.inr (Or.inl h.symm)
  · exact Or.inr (Or.inr ⟨h.1.symm, h.2.symm⟩)

theorem mem_boxPositions {p : Pos} {r c : Nat} :
    p ∈ boxPositions r c ↔ p.1 / 3 = r / 3 ∧ p.2 / 3 = c / 3 := by
  simp only [boxPositions, List.mem_flatMap, List.mem_map, List.mem_range]
  constructor
  · rintro ⟨a, ha, b, hb, rfl⟩
    constructor <;> simp <;> omega
  · rintro ⟨h1, h2⟩
    refine ⟨p.1 % 3, Nat.mod_lt _ (by omega), p.2 % 3, Nat.mod_lt _ (by omega), ?_⟩
    have e1 : r / 3 * 3 + p.1 % 3 = p.1 := by omega
    have e2 : c / 3 * 3 + p.2 % 3 = p.2 := by omega
    rw [e1, e2]

theorem mem_rowPeers {q : Pos} {r c : Nat} :
    q ∈ (((List.range 9).filter fun j => j != c).map fun j => (r, j)) ↔
      q.1 = r ∧ q.2 < 9 ∧ q.2 ≠ c := by
  simp only [List.mem_map, List.mem_filter, List.mem_range, bne_iff_ne, ne_eq]
  constructor
  · rintro ⟨j, ⟨hj9, hjc⟩, rfl⟩
    exact ⟨rfl, hj9, hjc⟩
  · rintro ⟨h1, h2, h3⟩
    exact ⟨q.2, ⟨h2, h3⟩, by rw [← h1]⟩

theorem mem_colPeers {q : Pos} {r c : Nat} :
    q ∈ (((List.range 9).filter fun j => j != r).map fun j => (j, c)) ↔
      q.2 = c ∧ q.1 < 9 ∧ q.1 ≠ r := by
  simp only [List.mem_map, List.mem_filter, List.mem_range, bne_iff_ne, ne_eq]
  constructor
  · rintro ⟨j, ⟨hj9, hjr⟩, rfl⟩
    exact ⟨rfl, hj9, hjr⟩
  · rintro ⟨h1, h2, h3⟩
    exact ⟨q.1, ⟨h2, h3⟩, by rw [← h1]⟩

theorem self_not_mem_rowPeers (r c : Nat) :
    ((r, c) : Pos) ∉ (((List.range 9).filter fun j => j != c).map fun j => (r, j)) := by
  intro h
  rcases mem_rowPeers.mp h with ⟨_, _, h3⟩
  exact h3 rfl

theorem self_not_mem_colPeers (r c : Nat) :
    ((r, c) : Pos) ∉ (((List.range 9).filter fun j => j != r).map fun j => (j, c)) := by
  intro h
  rcases mem_colPeers.mp h with ⟨_, _, h3⟩
  exact h3 rfl

theorem self_not_mem_boxPeers (r c : Nat) :
    ((r, c) : Pos) ∉ ((boxPositions r c).filter fun p => p != (r, c)) := by
  intro h
  rcases List.mem_filter.mp h with ⟨_, h2⟩
  simp at h2

-- Lemmas about one iteration of the consistency loop.

theorem AC3.process_destruct (g : Cells) (v : Pos) :
    ∃ g1 r1 g2 r2 g3 r3,
      AC3.remove_domain_row g v.1 v.2 = (g1, r1) ∧
      AC3.remove_domain_column g1 v.1 v.2 = (g2, r2) ∧
      AC3.remove_domain_unit g2 v.1 v.2 = (g3, r3) ∧
      AC3.process g v = (g3,
        match r1, r2, r3 with
        | some a, some b, some c => some (a ++ b ++ c)
        | _, _, _ => none) := by
  unfold AC3.process
  generalize h1 : AC3.remove_domain_row g v.1 v.2 = pr1
  obtain ⟨g1, r1⟩ := pr1
  generalize h2 : AC3.remove_domain_column g1 v.1 v.2 = pr2
  obtain ⟨g2, r2⟩ := pr2
  generalize h3 : AC3.remove_domain_unit g2 v.1 v.2 = pr3
  obtain ⟨g3, r3⟩ := pr3
  refine ⟨g1, r1, g2, r2, g3, r3, rfl, h2, h3, ?_⟩
  simp only [h2, h3]
  rcases r1 with _ | a <;> rcases r2 with _ | b <;> rcases r3 with _ | c <;> rfl

theorem AC3.process_sublist {g : Cells} {v : Pos} {g' : Cells}
    {res : Option (List Pos)} (h : AC3.process g v = (g', res)) :
    ∀ a b : Nat, (Grid.get_cell g' a b).Sublist (Grid.get_cell g a b) := by
  obtain ⟨g1, r1, g2, r2, g3, r3, h1, h2, h3, heq⟩ := AC3.process_destruct g v
  rw [h] at heq
  injection heq with hg hres
  subst hg
  intro a b
  exact ((AC3.removeAux_sublist h3 a b).trans
    (AC3.removeAux_sublist h2 a b)).trans (AC3.removeAux_sublist h1 a b)

theorem AC3.process_nonempty {g : Cells} {v : Pos} {g' : Cells}
    {res : Option (List Pos)} (h : AC3.process g v = (g', res)) :
    ∀ a b : Nat, Grid.get_cell g a b ≠ [] → Grid.get_cell g' a b ≠ [] := by
  obtain ⟨g1, r1, g2, r2, g3, r3, h1, h2, h3, heq⟩ := AC3.process_destruct g v
  rw [h] at heq
  injection heq with hg hres
  subst hg
  intro a b hne
  exact AC3.removeAux_nonempty h3 a b
    (AC3.removeAux_nonempty h2 a b (AC3.removeAux_nonempty h1 a b hne))

theorem AC3.process_dims {g : Cells} {v : Pos} {g' : Cells}
    {res : Option (List Pos)} (h : AC3.process g v = (g', res)) :
    g'.length = g.length ∧
      ∀ a : Nat, ((g'.getD a []).length = (g.getD a []).length) := by
  obtain ⟨g1, r1, g2, r2, g3, r3, h1, h2, h3, heq⟩ := AC3.process_destruct g v
  rw [h] at heq
  injection heq with hg hres
  subst hg
  obtain ⟨a1, b1⟩ := AC3.removeAux_dims h1
  obtain ⟨a2, b2⟩ := AC3.removeAux_dims h2
  obtain ⟨a3, b3⟩ := AC3.removeAux_dims h3
  exact ⟨(a3.trans a2).trans a1, fun a => ((b3 a).trans (b2 a)).trans (b1 a)⟩

theorem AC3.process_size_any {g : Cells} {v : Pos} {g' : Cells}
    {res : Option (List Pos)} (h : AC3.process g v = (g', res)) :
    totalSize g' ≤ totalSize g := by
  obtain ⟨g1, r1, g2, r2, g3, r3, h1, h2, h3, heq⟩ := AC3.process_destruct g v
  rw [h] at heq
  injection heq with hg hres
  subst hg
  exact ((AC3.removeAux_size_any h3).trans
    (AC3.removeAux_size_any h2)).trans (AC3.removeAux_size_any h1)

theorem AC3.process_size_success {g : Cells} {v : Pos} {g' : Cells}
    {adds : List Pos} (h : AC3.process g v = (g', some adds)) :
    totalSize g' + adds.length ≤ totalSize g := by
  obtain ⟨g1, r1, g2, r2, g3, r3, h1, h2, h3, heq⟩ := AC3.process_destruct g v
  rw [h] at heq
  injection heq with hg hres
  subst hg
  rcases r1 with _ | a
  · simp at hres
  rcases r2 with _ | b
  · simp at hres
  rcases r3 with _ | c
  · simp at hres
  simp only [Option.some.injEq] at hres
  subst hres
  have s1 := AC3.removeAux_size_success h1
  have s2 := AC3.removeAux_size_success h2
  have s3 := AC3.removeAux_size_success h3
  simp only [List.length_nil, List.length_append] at s1 s2 s3 ⊢
  omega

theorem AC3.process_singleton {g : Cells} {v : Pos} {g' : Cells}
    {adds : List Pos} (h : AC3.process g v = (g', some adds)) :
    ∀ a b : Nat, (Grid.get_cell g a b).length = 1 →
      Grid.get_cell g' a b = Grid.get_cell g a b := by
  obtain ⟨g1, r1, g2, r2, g3, r3, h1, h2, h3, heq⟩ := AC3.process_destruct g v
  rw [h] at heq
  injection heq with hg hres
  subst hg
  rcases r1 with _ | ra
  · simp at hres
  rcases r2 with _ | rb
  · simp at hres
  rcases r3 with _ | rc
  · simp at hres
  intro a b hone
  have e1 := AC3.removeAux_singleton h1 a b hone
  have e2 := AC3.removeAux_singleton h2 a b (by rw [e1]; exact hone)
  have e3 := AC3.removeAux_singleton h3 a b (by rw [e2, e1]; exact hone)
  rw [e3, e2, e1]

theorem AC3.process_new_singleton {g : Cells} {v : Pos} {g' : Cells}
    {adds : List Pos} (h : AC3.process g v = (g', some adds)) :
    ∀ q : Pos, (Grid.get_cell g' q.1 q.2).length = 1 →
      Grid.get_cell g' q.1 q.2 = Grid.get_cell g q.1 q.2 ∨ q ∈ adds := by
  obtain ⟨g1, r1, g2, r2, g3, r3, h1, h2, h3, heq⟩ := AC3.process_destruct g v
  rw [h] at heq
  injection heq with hg hres
  subst hg
  rcases r1 with _ | ra
  · simp at hres
  rcases r2 with _ | rb
  · simp at hres
  rcases r3 with _ | rc
  · simp at hres
  simp only [Option.some.injEq] at hres
  subst hres
  intro q hone
  rcases AC3.removeAux_new_singleton h3 q hone with e3 | e3
  · rcases AC3.removeAux_new_singleton h2 q (by rw [← e3]; exact hone) with e2 | e2
    · rcases AC3.removeAux_new_singleton h1 q
        (by rw [← e2, ← e3]; exact hone) with e1 | e1
      · exact Or.inl ((e3.trans e2).trans e1)
      · exact Or.inr (by simp [e1])
    · exact Or.inr (by simp [e2])
  · exact Or.inr (by simp [e3])

/-- On success of a whole loop iteration for a cell `v` holding the singleton
`[w]`, no peer of `v` (row, column or box) still has `w` in its domain. -/
theorem AC3.process_removed {g : Cells} {v : Pos} {g' : Cells}
    {adds : List Pos} {w : Char} (h : AC3.process g v = (g', some adds))
    (hval : Grid.get_cell g v.1 v.2 = [w]) :
    ∀ p : Pos, p ≠ v → inRange p → sameUnit p v →
      w ∉ Grid.get_cell g' p.1 p.2 := by
  obtain ⟨g1, r1, g2, r2, g3, r3, h1, h2, h3, heq⟩ := AC3.process_destruct g v
  rw [h] at heq
  injection heq with hg hres
  subst hg
  rcases r1 with _ | ra
  · simp at hres
  rcases r2 with _ | rb
  · simp at hres
  rcases r3 with _ | rc
  · simp at hres
  intro p hpv hp hunit
  have hv1 : Grid.get_cell g1 v.1 v.2 = [w] := by
    rw [AC3.removeAux_untouched h1 (v.1, v.2) (self_not_mem_rowPeers v.1 v.2)]
    exact hval
  have hv2 : Grid.get_cell g2 v.1 v.2 = [w] := by
    rw [AC3.removeAux_untouched h2 (v.1, v.2) (self_not_mem_colPeers v.1 v.2)]
    exact hv1
  rcases hunit with hrow | hcol | hbox
  · -- same row: eliminated by the row pass, then domains only shrink
    have hmem : p ∈ ((List.range 9).filter fun j => j != v.2).map
        fun j => (v.1, j) := by
      refine mem_rowPeers.mpr ⟨hrow, hp.2, ?_⟩
      intro hc
      exact hpv (Prod.ext hrow hc)
    have hw1 : w ∉ Grid.get_cell g1 p.1 p.2 :=
      AC3.removeAux_removed h1 hval (self_not_mem_rowPeers v.1 v.2) p hmem
    intro hmem'
    exact hw1 ((AC3.removeAux_sublist h2 p.1 p.2).subset
      ((AC3.removeAux_sublist h3 p.1 p.2).subset hmem'))
  · -- same column: eliminated by the column pass
    have hmem : p ∈ ((List.range 9).filter fun j => j != v.1).map
        fun j => (j, v.2) := by
      refine mem_colPeers.mpr ⟨hcol, hp.1, ?_⟩
      intro hc
      exact hpv (Prod.ext hc hcol)
    have hw2 : w ∉ Grid.get_cell g2 p.1 p.2 :=
      AC3.removeAux_removed h2 hv1 (self_not_mem_colPeers v.1 v.2) p hmem
    intro hmem'
    exact hw2 ((AC3.removeAux_sublist h3 p.1 p.2).subset hmem')
  · -- same box: eliminated by the unit pass
    have hmem : p ∈ (boxPositions v.1 v.2).filter fun q => q != (v.1, v.2) := by
      refine List.mem_filter.mpr ⟨mem_boxPositions.mpr ⟨hbox.1, hbox.2⟩, ?_⟩
      simp only [bne_iff_ne, ne_eq]
      intro hc
      exact hpv hc
    exact AC3.removeAux_removed h3 hv2 (self_not_mem_boxPeers v.1 v.2) p hmem

/-- If `v` holds the singleton `[w]` and some other cell of the same row also
holds exactly `[w]`, the loop iteration for `v` reports a contradiction. -/
theorem AC3.process_row_dup_fails {g : Cells} {v p : Pos} {w : Char}
    (hval : Grid.get_cell g v.1 v.2 = [w]) (hpv : p ≠ v) (hp : p.2 < 9)
    (hrow : same_row p v) (hpw : Grid.get_cell g p.1 p.2 = [w]) :
    (AC3.process g v).2 = none := by
  obtain ⟨g1, r1, g2, r2, g3, r3, h1, h2, h3, heq⟩ := AC3.process_destruct g v
  have hmem : p ∈ ((List.range 9).filter fun j => j != v.2).map
      fun j => (v.1, j) := by
    refine mem_rowPeers.mpr ⟨hrow, hp, ?_⟩
    intro hc
    exact hpv (Prod.ext hrow hc)
  have hfail := @AC3.removeAux_dup_fails g v.1 v.2 [] _ _
    hval (self_not_mem_rowPeers v.1 v.2) ⟨p, hmem, hpw⟩
  rw [show AC3.removeAux g v.1 v.2 []
      (((List.range 9).filter fun j => j != v.2).map fun j => (v.1, j))
      = AC3.remove_domain_row g v.1 v.2 from rfl] at hfail
  rw [h1] at hfail
  simp only at hfail
  subst hfail
  rw [heq]

/-- A whole loop iteration never touches the popped cell itself. -/
theorem AC3.process_untouched {g : Cells} {v : Pos} {g' : Cells}
    {res : Option (List Pos)} (h : AC3.process g v = (g', res)) :
    Grid.get_cell g' v.1 v.2 = Grid.get_cell g v.1 v.2 := by
  obtain ⟨g1, r1, g2, r2, g3, r3, h1, h2, h3, heq⟩ := AC3.process_destruct g v
  rw [h] at heq
  injection heq with hg hres
  subst hg
  rw [AC3.removeAux_untouched h3 (v.1, v.2) (self_not_mem_boxPeers v.1 v.2)]
  rw [AC3.removeAux_untouched h2 (v.1, v.2) (self_not_mem_colPeers v.1 v.2)]
  rw [AC3.removeAux_untouched h1 (v.1, v.2) (self_not_mem_rowPeers v.1 v.2)]

-- The consistency loop: fuel monotonicity, sufficiency, unfolding.

theorem AC3.consistencyF_mono :
    ∀ {n m : Nat} {g : Cells} {Q : List Pos} {r : Cells × Bool},
      AC3.consistencyF n g Q = some r → n ≤ m →
      AC3.consistencyF m g Q = some r := by
  intro n
  induction n with
  | zero =>
    intro m g Q r h
    simp [AC3.consistencyF] at h
  | succ k ih =>
    intro m g Q r h hle
    obtain ⟨m', rfl⟩ : ∃ m', m = m' + 1 := ⟨m - 1, by omega⟩
    simp only [AC3.consistencyF] at h ⊢
    rcases hQ : Q.getLast? with _ | v
    · simp only [hQ] at h ⊢
      exact h
    · simp only [hQ] at h ⊢
      rcases hpr : AC3.process g v with ⟨g1, res⟩
      simp only [hpr] at h ⊢
      rcases res with _ | adds
      · exact h
      · exact ih h (by omega)

theorem AC3.consistencyF_suff :
    ∀ {n : Nat} {g : Cells} {Q : List Pos},
      2 * totalSize g + Q.length < n →
      (AC3.consistencyF n g Q).isSome = true := by
  intro n
  induction n with
  | zero =>
    intro g Q h
    exact absurd h (Nat.not_lt_zero _)
  | succ k ih =>
    intro g Q h
    simp only [AC3.consistencyF]
    rcases hQ : Q.getLast? with _ | v
    · simp
    · simp only
      rcases hpr : AC3.process g v with ⟨g1, res⟩
      rcases res with _ | adds
      · simp
      · have hQne : Q ≠ [] := by
          intro hc
          rw [hc] at hQ
          simp at hQ
        have hQpos : 0 < Q.length := List.length_pos.mpr hQne
        have hsz := AC3.process_size_success hpr
        apply ih
        simp only [List.length_append, List.length_dropLast]
        omega

theorem AC3.consistencyF_agree {n m : Nat} {g : Cells} {Q : List Pos}
    {r r' : Cells × Bool} (hn : AC3.consistencyF n g Q = some r)
    (hm : AC3.consistencyF m g Q = some r') : r = r' := by
  rcases Nat.le_total n m with hle | hle
  · have := AC3.consistencyF_mono hn hle
    rw [this] at hm
    exact Option.some.inj hm
  · have := AC3.consistencyF_mono hm hle
    rw [this] at hn
    exact (Option.some.inj hn).symm

/-- Any fuel-indexed run that completes computes `AC3.consistency`. -/
theorem AC3.consistency_spec {n : Nat} {g : Cells} {Q : List Pos}
    {r : Cells × Bool} (hn : AC3.consistencyF n g Q = some r) :
    AC3.consistency g Q = r := by
  unfold AC3.consistency
  have hs : (AC3.consistencyF (consBound g Q) g Q).isSome = true :=
    AC3.consistencyF_suff (by unfold consBound; omega)
  obtain ⟨r', hr'⟩ := Option.isSome_iff_exists.mp hs
  rw [hr']
  simp only [Option.getD_some]
  exact (AC3.consistencyF_agree hn hr').symm

theorem AC3.consistency_total (g : Cells) (Q : List Pos) :
    AC3.consistencyF (consBound g Q) g Q = some (AC3.consistency g Q) := by
  have hs : (AC3.consistencyF (consBound g Q) g Q).isSome = true :=
    AC3.consistencyF_suff (by unfold consBound; omega)
  obtain ⟨r', hr'⟩ := Option.isSome_iff_exists.mp hs
  rw [hr', AC3.consistency_spec hr']

theorem AC3.consistency_nil (g : Cells) : AC3.consistency g [] = (g, true) :=
  AC3.consistency_spec (n := 1) (by simp [AC3.consistencyF])

theorem AC3.consistency_fail {g : Cells} {Q : List Pos} {v : Pos} {g' : Cells}
    (hQ : Q.getLast? = some v) (hpr : AC3.process g v = (g', none)) :
    AC3.consistency g Q = (g', false) := by
  refine AC3.consistency_spec (n := 1) ?_
  simp [AC3.consistencyF, hQ, hpr]

theorem AC3.consistency_ok {g : Cells} {Q : List Pos} {v : Pos} {g1 : Cells}
    {adds : List Pos} (hQ : Q.getLast? = some v)
    (hpr : AC3.process g v = (g1, some adds)) :
    AC3.consistency g Q = AC3.consistency g1 (Q.dropLast ++ adds) := by
  have htail := AC3.consistency_total g1 (Q.dropLast ++ adds)
  have hstep : AC3.consistencyF (consBound g1 (Q.dropLast ++ adds) + 1) g Q
      = some (AC3.consistency g1 (Q.dropLast ++ adds)) := by
    simp only [AC3.consistencyF, hQ, hpr]
    exact htail
  exact AC3.consistency_spec hstep

-- Preservation lemmas for the whole consistency run.

theorem AC3.consistencyF_nonempty :
    ∀ {n : Nat} {g : Cells} {Q : List Pos} {g' : Cells} {b : Bool},
      AC3.consistencyF n g Q = some (g', b) →
      ∀ a c : Nat, Grid.get_cell g a c ≠ [] → Grid.get_cell g' a c ≠ [] := by
  intro n
  induction n with
  | zero =>
    intro g Q g' b h
    simp [AC3.consistencyF] at h
  | succ k ih =>
    intro g Q g' b h
    simp only [AC3.consistencyF] at h
    rcases hQ : Q.getLast? with _ | v
    · simp only [hQ, Option.some.injEq] at h
      injection h with h1 h2
      subst h1
      exact fun a c hne => hne
    · simp only [hQ] at h
      rcases hpr : AC3.process g v with ⟨g1, res⟩
      simp only [hpr] at h
      rcases res with _ | adds
      · injection h with h'
        injection h' with h1 h2
        subst h1
        exact AC3.process_nonempty hpr
      · intro a c hne
        exact ih h a c (AC3.process_nonempty hpr a c hne)

theorem AC3.consistencyF_sublist :
    ∀ {n : Nat} {g : Cells} {Q : List Pos} {g' : Cells} {b : Bool},
      AC3.consistencyF n g Q = some (g', b) →
      ∀ a c : Nat, (Grid.get_cell g' a c).Sublist (Grid.get_cell g a c) := by
  intro n
  induction n with
  | zero =>
    intro g Q g' b h
    simp [AC3.consistencyF] at h
  | succ k ih =>
    intro g Q g' b h
    simp only [AC3.consistencyF] at h
    rcases hQ : Q.getLast? with _ | v
    · simp only [hQ, Option.some.injEq] at h
      injection h with h1 h2
      subst h1
      intro a c
      exact List.Sublist.refl _
    · simp only [hQ] at h
      rcases hpr : AC3.process g v with ⟨g1, res⟩
      simp only [hpr] at h
      rcases res with _ | adds
      · injection h with h'
        injection h' with h1 h2
        subst h1
        exact AC3.process_sublist hpr
      · intro a c
        exact (ih h a c).trans (AC3.process_sublist hpr a c)

theorem AC3.consistencyF_dims :
    ∀ {n : Nat} {g : Cells} {Q : List Pos} {g' : Cells} {b : Bool},
      AC3.consistencyF n g Q = some (g', b) →
      g'.length = g.length ∧
        ∀ a : Nat, ((g'.getD a []).length = (g.getD a []).length) := by
  intro n
  induction n with
  | zero =>
    intro g Q g' b h
    simp [AC3.consistencyF] at h
  | succ k ih =>
    intro g Q g' b h
    simp only [AC3.consistencyF] at h
    rcases hQ : Q.getLast? with _ | v
    · simp only [hQ, Option.some.injEq] at h
      injection h with h1 h2
      subst h1
      exact ⟨rfl, fun _ => rfl⟩
    · simp only [hQ] at h
      rcases hpr : AC3.process g v with ⟨g1, res⟩
      simp only [hpr] at h
      rcases res with _ | adds
      · injection h with h'
        injection h' with h1 h2
        subst h1
        exact AC3.process_dims hpr
      · obtain ⟨a1, b1⟩ := AC3.process_dims hpr
        obtain ⟨a2, b2⟩ := ih h
        exact ⟨a2.trans a1, fun a => (b2 a).trans (b1 a)⟩

theorem AC3.consistencyF_size :
    ∀ {n : Nat} {g : Cells} {Q : List Pos} {g' : Cells} {b : Bool},
      AC3.consistencyF n g Q = some (g', b) → totalSize g' ≤ totalSize g := by
  intro n
  induction n with
  | zero =>
    intro g Q g' b h
    simp [AC3.consistencyF] at h
  | succ k ih =>
    intro g Q g' b h
    simp only [AC3.consistencyF] at h
    rcases hQ : Q.getLast? with _ | v
    · simp only [hQ, Option.some.injEq] at h
      injection h with h1 h2
      subst h1
      exact Nat.le_refl _
    · simp only [hQ] at h
      rcases hpr : AC3.process g v with ⟨g1, res⟩
      simp only [hpr] at h
      rcases res with _ | adds
      · injection h with h'
        injection h' with h1 h2
        subst h1
        exact AC3.process_size_any hpr
      · exact (ih h).trans (AC3.process_size_any hpr)

-- Conflict bookkeeping for the uniqueness argument.

/-- No two distinct peer cells on the board are assigned (singleton domains)
with the same value. -/
def NoConflict (g : Cells) : Prop :=
  ∀ p q : Pos, p ≠ q → inRange p → inRange q → sameUnit p q →
    (Grid.get_cell g p.1 p.2).length = 1 →
    Grid.get_cell g q.1 q.2 ≠ Grid.get_cell g p.1 p.2

/-- Every assigned-with-equal-values peer pair still has a member waiting in
the propagation queue (so the conflict will be detected before the queue
empties). -/
def PendingConflicts (g : Cells) (Q : List Pos) : Prop :=
  ∀ p q : Pos, p ≠ q → inRange p → inRange q → sameUnit p q →
    (Grid.get_cell g p.1 p.2).length = 1 →
    Grid.get_cell g q.1 q.2 = Grid.get_cell g p.1 p.2 →
    p ∈ Q ∨ q ∈ Q

theorem NoConflict.pending {g : Cells} (h : NoConflict g) (Q : List Pos) :
    PendingConflicts g Q :=
  fun p q hpq hp hq hu hl he => absurd he (h p q hpq hp hq hu hl)

theorem PendingConflicts.noConflict {g : Cells}
    (h : PendingConflicts g []) : NoConflict g := by
  intro p q hpq hp hq hu hl he
  rcases h p q hpq hp hq hu hl he with hc | hc <;> simp at hc

theorem mem_dropLast_of_ne {Q : List Pos} {v p : Pos}
    (hQ : Q.getLast? = some v) (hp : p ∈ Q) (hne : p ≠ v) :
    p ∈ Q.dropLast := by
  have hQeq : Q.dropLast ++ [v] = Q :=
    List.dropLast_append_getLast? v (Option.mem_def.mpr hQ)
  rw [← hQeq] at hp
  rcases List.mem_append.mp hp with h | h
  · exact h
  · simp only [List.mem_singleton] at h
    exact absurd h hne

/-- The key invariant-preservation step: a successful loop iteration keeps
every surviving conflicting pair pending in the new queue. -/
theorem AC3.pending_step {g : Cells} {Q : List Pos} {v : Pos} {g1 : Cells}
    {adds : List Pos} (hQ : Q.getLast? = some v)
    (hpr : AC3.process g v = (g1, some adds))
    (hpend : PendingConflicts g Q) :
    PendingConflicts g1 (Q.dropLast ++ adds) := by
  intro p q hpq hp hq hu hplen hqe
  have hqlen : (Grid.get_cell g1 q.1 q.2).length = 1 := by
    rw [hqe]
    exact hplen
  rcases AC3.process_new_singleton hpr p hplen with hpold | hpnew
  · rcases AC3.process_new_singleton hpr q hqlen with hqold | hqnew
    · -- both cells were already singletons with the same values before the step
      have hplen0 : (Grid.get_cell g p.1 p.2).length = 1 := by
        rw [← hpold]
        exact hplen
      have hqe0 : Grid.get_cell g q.1 q.2 = Grid.get_cell g p.1 p.2 := by
        rw [← hpold, ← hqold]
        exact hqe
      rcases hpend p q hpq hp hq hu hplen0 hqe0 with hmem | hmem
      · by_cases hpv : p = v
        · -- the popped cell is part of the conflict: the step must have failed
          exfalso
          subst hpv
          obtain ⟨w, hw⟩ := List.length_eq_one.mp hplen0
          have hnot := AC3.process_removed hpr hw q (Ne.symm hpq) hq
            (sameUnit_symm hu)
          apply hnot
          rw [hqe, hpold, hw]
          exact List.mem_singleton_self w
        · exact Or.inl (List.mem_append_left _ (mem_dropLast_of_ne hQ hmem hpv))
      · by_cases hqv : q = v
        · exfalso
          subst hqv
          have hqlen0 : (Grid.get_cell g q.1 q.2).length = 1 := by
            rw [← hqold]
            exact hqlen
          obtain ⟨w, hw⟩ := List.length_eq_one.mp hqlen0
          have hpv : p ≠ q := hpq
          have hnot := AC3.process_removed hpr hw p hpv hp hu
          apply hnot
          rw [hpold, hqe0.symm.trans hw]
          exact List.mem_singleton_self w
        · exact Or.inr (List.mem_append_left _ (mem_dropLast_of_ne hQ hmem hqv))
    · exact Or.inr (List.mem_append_right _ hqnew)
  · exact Or.inl (List.mem_append_right _ hpnew)

/-- If every conflicting pair is pending in the queue and the consistency run
succeeds, the final grid has no conflicting assigned pair at all. -/
theorem AC3.consistencyF_noConflict :
    ∀ {n : Nat} {g : Cells} {Q : List Pos} {g' : Cells},
      AC3.consistencyF n g Q = some (g', true) →
      PendingConflicts g Q → NoConflict g' := by
  intro n
  induction n with
  | zero =>
    intro g Q g' h
    simp [AC3.consistencyF] at h
  | succ k ih =>
    intro g Q g' h hpend
    simp only [AC3.consistencyF] at h
    rcases hQ : Q.getLast? with _ | v
    · simp only [hQ, Option.some.injEq] at h
      injection h with h1 h2
      subst h1
      have hQnil : Q = [] := List.getLast?_eq_none_iff.mp hQ
      subst hQnil
      exact hpend.noConflict
    · simp only [hQ] at h
      rcases hpr : AC3.process g v with ⟨g1, res⟩
      simp only [hpr] at h
      rcases res with _ | adds
      · injection h with h'
        injection h' with h1 h2
        cases h2
      · exact ih h (AC3.pending_step hQ hpr hpend)

-- A doomed queue: a same-row duplicated singleton pair with a member pending.

/-- Two distinct cells of one row hold the identical singleton value and at
least one of them is still in the queue. -/
def Doomed (g : Cells) (Q : List Pos) : Prop :=
  ∃ a b : Pos, ∃ w : Char, a ≠ b ∧ inRange a ∧ inRange b ∧ same_row a b ∧
    Grid.get_cell g a.1 a.2 = [w] ∧ Grid.get_cell g b.1 b.2 = [w] ∧
    (a ∈ Q ∨ b ∈ Q)

theorem AC3.consistencyF_doomed :
    ∀ {n : Nat} {g : Cells} {Q : List Pos} {g' : Cells} {b : Bool},
      AC3.consistencyF n g Q = some (g', b) → Doomed g Q → b = false := by
  intro n
  induction n with
  | zero =>
    intro g Q g' b h
    simp [AC3.consistencyF] at h
  | succ k ih =>
    intro g Q g' b h hdoom
    obtain ⟨a, b', w, hab, ha, hb, hrow, haw, hbw, hmem⟩ := hdoom
    simp only [AC3.consistencyF] at h
    rcases hQ : Q.getLast? with _ | v
    · have hQnil : Q = [] := List.getLast?_eq_none_iff.mp hQ
      subst hQnil
      rcases hmem with hc | hc <;> simp at hc
    · simp only [hQ] at h
      by_cases hva : v = a
      · subst hva
        have hfail := AC3.process_row_dup_fails haw (Ne.symm hab) hb.2
          (hrow.symm) hbw
        rcases hpr : AC3.process g v with ⟨g1, res⟩
        rw [hpr] at hfail
        simp only at hfail
        subst hfail
        simp only [hpr, Option.some.injEq] at h
        injection h with h1 h2
        exact h2.symm
      · by_cases hvb : v = b'
        · subst hvb
          have hfail := AC3.process_row_dup_fails hbw hab ha.2 hrow haw
          rcases hpr : AC3.process g v with ⟨g1, res⟩
          rw [hpr] at hfail
          simp only at hfail
          subst hfail
          simp only [hpr, Option.some.injEq] at h
          injection h with h1 h2
          exact h2.symm
        · rcases hpr : AC3.process g v with ⟨g1, res⟩
          simp only [hpr] at h
          rcases res with _ | adds
          · injection h with h'
            injection h' with h1 h2
            exact h2.symm
          · refine ih h ⟨a, b', w, hab, ha, hb, hrow, ?_, ?_, ?_⟩
            · rw [AC3.process_singleton hpr a.1 a.2 (by rw [haw]; rfl)]
              exact haw
            · rw [AC3.process_singleton hpr b'.1 b'.2 (by rw [hbw]; rfl)]
              exact hbw
            · rcases hmem with hc | hc
              · exact Or.inl (List.mem_append_left _
                  (mem_dropLast_of_ne hQ hc (fun hx => hva hx.symm)))
              · exact Or.inr (List.mem_append_left _
                  (mem_dropLast_of_ne hQ hc (fun hx => hvb hx.symm)))

-- The processing relation of the consistency loop, for describing its
-- control flow: which (grid, queue) configurations a run visits.

/-- `AC3.Reaches g Q g' Q'` holds when the `while Q` loop of
`AC3.consistency`, started on `(g, Q)`, reaches the configuration `(g', Q')`
through zero or more non-failing iterations. -/
inductive AC3.Reaches : Cells → List Pos → Cells → List Pos → Prop where
  | refl (g : Cells) (Q : List Pos) : AC3.Reaches g Q g Q
  | step {g : Cells} {Q : List Pos} {v : Pos} {g1 : Cells} {adds : List Pos}
      {g2 : Cells} {Q2 : List Pos} (hQ : Q.getLast? = some v)
      (hpr : AC3.process g v = (g1, some adds))
      (htail : AC3.Reaches g1 (Q.dropLast ++ adds) g2 Q2) :
      AC3.Reaches g Q g2 Q2

theorem AC3.consistencyF_fail_reaches :
    ∀ {n : Nat} {g : Cells} {Q : List Pos} {h : Cells},
      AC3.consistencyF n g Q = some (h, false) →
      ∃ g' Q' v g'', AC3.Reaches g Q g' Q' ∧ Q'.getLast? = some v ∧
        AC3.process g' v = (g'', none) ∧ h = g'' := by
  intro n
  induction n with
  | zero =>
    intro g Q h hrun
    simp [AC3.consistencyF] at hrun
  | succ k ih =>
    intro g Q h hrun
    simp only [AC3.consistencyF] at hrun
    rcases hQ : Q.getLast? with _ | v
    · simp only [hQ, Option.some.injEq] at hrun
      injection hrun with h1 h2
      cases h2
    · simp only [hQ] at hrun
      rcases hpr : AC3.process g v with ⟨g1, res⟩
      simp only [hpr] at hrun
      rcases res with _ | adds
      · injection hrun with h'
        injection h' with h1 h2
        subst h1
        exact ⟨g, Q, v, g1, AC3.Reaches.refl g Q, hQ, hpr, rfl⟩
      · obtain ⟨g', Q', v', g'', hre, hQ', hpr', hh⟩ := ih hrun
        exact ⟨g', Q', v', g'', AC3.Reaches.step hQ hpr hre, hQ', hpr', hh⟩

theorem AC3.consistencyF_true_reaches :
    ∀ {n : Nat} {g : Cells} {Q : List Pos} {h : Cells},
      AC3.consistencyF n g Q = some (h, true) → AC3.Reaches g Q h [] := by
  intro n
  induction n with
  | zero =>
    intro g Q h hrun
    simp [AC3.consistencyF] at hrun
  | succ k ih =>
    intro g Q h hrun
    simp only [AC3.consistencyF] at hrun
    rcases hQ : Q.getLast? with _ | v
    · simp only [hQ, Option.some.injEq] at hrun
      injection hrun with h1 h2
      subst h1
      have hQnil : Q = [] := List.getLast?_eq_none_iff.mp hQ
      subst hQnil
      exact AC3.Reaches.refl g []
    · simp only [hQ] at hrun
      rcases hpr : AC3.process g v with ⟨g1, res⟩
      simp only [hpr] at hrun
      rcases res with _ | adds
      · injection hrun with h'
        injection h' with h1 h2
        cases h2
      · exact AC3.Reaches.step hQ hpr (ih hrun)

theorem AC3.reaches_fail_consistency {g : Cells} {Q : List Pos} {g' : Cells}
    {Q' : List Pos} (hre : AC3.Reaches g Q g' Q') :
    ∀ {v : Pos} {g'' : Cells}, Q'.getLast? = some v →
      AC3.process g' v = (g'', none) → AC3.consistency g Q = (g'', false) := by
  induction hre with
  | refl g Q =>
    intro v g'' hQ hpr
    exact AC3.consistency_fail hQ hpr
  | step hQ hpr htail ih =>
    intro v g'' hQ' hpr'
    rw [AC3.consistency_ok hQ hpr]
    exact ih hQ' hpr'

theorem AC3.reaches_empty_consistency {g : Cells} {Q : List Pos} {g' : Cells}
    (hre : AC3.Reaches g Q g' []) : AC3.consistency g Q = (g', true) := by
  generalize hE : ([] : List Pos) = E at hre
  induction hre with
  | refl g Q =>
    subst hE
    exact AC3.consistency_nil g
  | step hQ hpr htail ih =>
    rw [AC3.consistency_ok hQ hpr]
    exact ih hE

-- The backtracking search.

/-- `Backtracking.getRowValues` (main.py lines 342-347): concatenation of the
singleton domains found in the row of `var` (including the cell itself, which
in `search` is never a singleton when this is called). -/
def Backtracking.getRowValues (g : Cells) (var : Pos) : Dom :=
  (List.range 9).flatMap fun j =>
    if (Grid.get_cell g var.1 j).length = 1 then Grid.get_cell g var.1 j else []

/-- `Backtracking.getColumnValues` (main.py lines 349-354). -/
def Backtracking.getColumnValues (g : Cells) (var : Pos) : Dom :=
  (List.range 9).flatMap fun i =>
    if (Grid.get_cell g i var.2).length = 1 then Grid.get_cell g i var.2 else []

/-- `Backtracking.getUnitValues` (main.py lines 356-368): the box of `var`,
skipping `var` itself. -/
def Backtracking.getUnitValues (g : Cells) (var : Pos) : Dom :=
  ((boxPositions var.1 var.2).filter fun p => p != var).flatMap fun p =>
    if (Grid.get_cell g p.1 p.2).length = 1 then Grid.get_cell g p.1 p.2 else []

/-- `Backtracking.isConsistent` (main.py lines 370-378): the candidate value
does not already appear among the assigned cells of the row, column or box. -/
def Backtracking.isConsistent (g : Cells) (var : Pos) (value : Char) : Bool :=
  !(Backtracking.getRowValues g var).contains value &&
  !(Backtracking.getColumnValues g var).contains value &&
  !(Backtracking.getUnitValues g var).contains value

/-- Result of one `Backtracking.search` call: a returned grid, the failure
sentinel `0`, or a raised exception (the source indexes the grid with the
selector's no-selection result: `None` for `FirstAvailable`, `(10, 10)` for
`MRV`, both of which raise). -/
inductive SearchOut where
  | found : Cells → SearchOut
  | failure : SearchOut
  | stuck : SearchOut
  deriving DecidableEq

/-- A variable selector as consumed by `search`: `none` models a selector
outcome on which the source raises when the position is used. -/
abbrev Selector := Cells → Option Pos

/-- The `for d in grid.get_cells()[var[0]][var[1]]` loop of `search`
(main.py lines 409-424), abstracted over the recursive call `rec`: assign
each locally consistent candidate on a copy, propagate with
`AC3.consistency` seeded with `[var]`, recurse on success, and short-circuit
on the first returned solution. -/
def Backtracking.searchLoop (rec : Cells → Option SearchOut) (g : Cells)
    (var : Pos) : Dom → Option SearchOut
  | [] => some SearchOut.failure
  | d :: ds =>
    if Backtracking.isConsistent g var d then
      match AC3.consistency (Grid.set_cell g var.1 var.2 [d]) [var] with
      | (_, false) => Backtracking.searchLoop rec g var ds
      | (g2, true) =>
        match rec g2 with
        | none => none
        | some (SearchOut.found rb) => some (SearchOut.found rb)
        | some SearchOut.stuck => some SearchOut.stuck
        | some SearchOut.failure => Backtracking.searchLoop rec g var ds
    else Backtracking.searchLoop rec g var ds

/-- Fuel-indexed embedding of `Backtracking.search` (main.py lines 401-425);
`none` means the fuel ran out (a sufficient bound is proved below). -/
def Backtracking.search : Nat → Selector → Cells → Option SearchOut
  | 0, _, _ => none
  | n + 1, sel, g =>
    if Grid.is_solved g then some (SearchOut.found g)
    else
      match sel g with
      | none => some SearchOut.stuck
      | some var => Backtracking.searchLoop (Backtracking.search n sel) g var
          (Grid.get_cell g var.1 var.2)

/-- The candidate loop of `search` at fuel `n`: recursive calls run
`Backtracking.search n sel`. -/
def Backtracking.tryCands (n : Nat) (sel : Selector) (g : Cells) (var : Pos)
    (ds : Dom) : Option SearchOut :=
  Backtracking.searchLoop (Backtracking.search n sel) g var ds

/-- The selector used when the driver passes a `FirstAvailable` object. -/
def faSelector : Selector := FirstAvailable.select_variable

/-- The selector used when the driver passes an `MRV` object: the sentinel
`(10, 10)` makes `search` index out of the 9x9 grid and raise, which the
embedding records as the no-selection outcome. -/
def mrvSelector : Selector := fun g =>
  if MRV.select_variable g = (10, 10) then none else some (MRV.select_variable g)

/-- The per-puzzle pipeline of the driver (main.py lines 433-445 and 449-462):
read the puzzle, run pre-processing (whose success flag the source discards),
then search on whatever grid pre-processing left behind. -/
def pipeline (sel : Selector) (s : List Char) : Option SearchOut :=
  let g := AC3.pre_process_consistency (Grid.read_file s)
  Backtracking.search (totalSize g + 1) sel g

-- Selector facts.

/-- Row-major rank of a position. -/
def rmIdx (p : Pos) : Nat := 9 * p.1 + p.2

theorem allPositions_sorted :
    allPositions.Pairwise (fun p q => rmIdx p < rmIdx q) := by decide

theorem mem_allPositions {p : Pos} : p ∈ allPositions ↔ inRange p := by
  simp only [allPositions, List.mem_flatMap, List.mem_map, List.mem_range]
  constructor
  · rintro ⟨i, hi, j, hj, rfl⟩
    exact ⟨hi, hj⟩
  · rintro ⟨h1, h2⟩
    exact ⟨p.1, h1, p.2, h2, rfl⟩

theorem cell_length_le_totalSize (g : Cells) (a b : Nat) :
    (Grid.get_cell g a b).length ≤ totalSize g := by
  have h := totalSize_set_cell_le g a b []
  simp only [List.length_nil, Nat.add_zero] at h
  omega

/-- What `search` relies on from a selector: any returned position is on the
board and names an unassigned cell. -/
def GoodSelector (sel : Selector) : Prop :=
  ∀ g p, sel g = some p → inRange p ∧ 1 < (Grid.get_cell g p.1 p.2).length

theorem faSelector_good : GoodSelector faSelector := by
  intro g p h
  unfold faSelector FirstAvailable.select_variable at h
  have hmem := List.mem_of_find?_eq_some h
  have hpred := List.find?_some h
  simp only [decide_eq_true_eq] at hpred
  exact ⟨mem_allPositions.mp hmem, hpred⟩

/-- Characterization of the `MRV.select_variable` scan over any list of
positions: the final state either is the initial state (no cell qualified),
or records the first position attaining the minimal qualifying domain size. -/
theorem MRV.foldl_spec (g : Cells) :
    ∀ (L : List Pos) (b : Pos) (s : Nat),
      (L.foldl (MRV.scanStep g) (b, s) = (b, s) ∧
        ∀ q ∈ L, ¬(1 < (Grid.get_cell g q.1 q.2).length ∧
          (Grid.get_cell g q.1 q.2).length < s)) ∨
      (∃ L1 p L2, L = L1 ++ p :: L2 ∧
        L.foldl (MRV.scanStep g) (b, s) = (p, (Grid.get_cell g p.1 p.2).length) ∧
        1 < (Grid.get_cell g p.1 p.2).length ∧
        (Grid.get_cell g p.1 p.2).length < s ∧
        (∀ q ∈ L1, 1 < (Grid.get_cell g q.1 q.2).length →
          (Grid.get_cell g q.1 q.2).length < s →
          (Grid.get_cell g p.1 p.2).length < (Grid.get_cell g q.1 q.2).length) ∧
        (∀ q ∈ L2, 1 < (Grid.get_cell g q.1 q.2).length →
          (Grid.get_cell g p.1 p.2).length ≤ (Grid.get_cell g q.1 q.2).length)) := by
  intro L
  induction L with
  | nil =>
    intro b s
    exact Or.inl ⟨rfl, by simp⟩
  | cons q0 L' ih =>
    intro b s
    by_cases hc : 1 < (Grid.get_cell g q0.1 q0.2).length ∧
        (Grid.get_cell g q0.1 q0.2).length < s
    · have hstep : MRV.scanStep g (b, s) q0
          = (q0, (Grid.get_cell g q0.1 q0.2).length) := by
        unfold MRV.scanStep
        rw [if_pos hc]
      rcases ih q0 (Grid.get_cell g q0.1 q0.2).length with ⟨heq, hnone⟩ | hfound
      · refine Or.inr ⟨[], q0, L', by simp, ?_, hc.1, hc.2, by simp, ?_⟩
        · simp only [List.foldl_cons, hstep]
          exact heq
        · intro q hq h1
          rcases Nat.lt_or_ge (Grid.get_cell g q.1 q.2).length
            (Grid.get_cell g q0.1 q0.2).length with hlt | hge
          · exact absurd ⟨h1, hlt⟩ (hnone q hq)
          · exact hge
      · obtain ⟨L1, p, L2, hL, hfold, hp1, hp2, hbefore, hafter⟩ := hfound
        refine Or.inr ⟨q0 :: L1, p, L2, by simp [hL], ?_, hp1, hp2.trans hc.2, ?_, hafter⟩
        · simp only [List.foldl_cons, hstep]
          exact hfold
        · intro q hq h1 h2
          rcases List.mem_cons.mp hq with hq0 | hq1
          · subst hq0
            exact hp2
          · rcases Nat.lt_or_ge (Grid.get_cell g q.1 q.2).length
              (Grid.get_cell g q0.1 q0.2).length with hlt | hge
            · exact hbefore q hq1 h1 hlt
            · exact Nat.lt_of_lt_of_le hp2 hge
    · have hstep : MRV.scanStep g (b, s) q0 = (b, s) := by
        unfold MRV.scanStep
        rw [if_neg hc]
      rcases ih b s with ⟨heq, hnone⟩ | hfound
      · refine Or.inl ⟨?_, ?_⟩
        · simp only [List.foldl_cons, hstep]
          exact heq
        · intro q hq
          rcases List.mem_cons.mp hq with hq0 | hq1
          · subst hq0
            exact hc
          · exact hnone q hq1
      · obtain ⟨L1, p, L2, hL, hfold, hp1, hp2, hbefore, hafter⟩ := hfound
        refine Or.inr ⟨q0 :: L1, p, L2, by simp [hL], ?_, hp1, hp2, ?_, hafter⟩
        · simp only [List.foldl_cons, hstep]
          exact hfold
        · intro q hq h1 h2
          rcases List.mem_cons.mp hq with hq0 | hq1
          · subst hq0
            exact absurd ⟨h1, h2⟩ hc
          · exact hbefore q hq1 h1 h2

/-- The full characterization of `MRV.select_variable`: either the sentinel
is returned and no cell has a domain of size in `(1, 10)`, or the returned
position attains the minimal qualifying domain size, first in row-major
order among the positions that attain it. -/
theorem MRV.select_spec (g : Cells) :
    (MRV.select_variable g = (10, 10) ∧
      ∀ q : Pos, inRange q → ¬(1 < (Grid.get_cell g q.1 q.2).length ∧
        (Grid.get_cell g q.1 q.2).length < 10)) ∨
    (∃ p : Pos, MRV.select_variable g = p ∧ inRange p ∧
      1 < (Grid.get_cell g p.1 p.2).length ∧
      (Grid.get_cell g p.1 p.2).length < 10 ∧
      (∀ q : Pos, inRange q → 1 < (Grid.get_cell g q.1 q.2).length →
        (Grid.get_cell g q.1 q.2).length < 10 →
        (Grid.get_cell g p.1 p.2).length ≤ (Grid.get_cell g q.1 q.2).length) ∧
      (∀ q : Pos, inRange q → 1 < (Grid.get_cell g q.1 q.2).length →
        (Grid.get_cell g q.1 q.2).length = (Grid.get_cell g p.1 p.2).length →
        rmIdx p ≤ rmIdx q)) := by
  rcases MRV.foldl_spec g allPositions (10, 10) 10 with ⟨heq, hnone⟩ | hfound
  · left
    constructor
    · unfold MRV.select_variable
      rw [heq]
    · intro q hq
      exact hnone q (mem_allPositions.mpr hq)
  · obtain ⟨L1, p, L2, hL, hfold, hp1, hp2, hbefore, hafter⟩ := hfound
    right
    have hpmem : p ∈ allPositions := by
      rw [hL]
      exact List.mem_append_right _ (List.mem_cons_self p L2)
    refine ⟨p, ?_, mem_allPositions.mp hpmem, hp1, hp2, ?_, ?_⟩
    · unfold MRV.select_variable
      rw [hfold]
    · intro q hq h1 h2
      have hqmem : q ∈ allPositions := mem_allPositions.mpr hq
      rw [hL] at hqmem
      rcases List.mem_append.mp hqmem with hq1 | hq2
      · exact Nat.le_of_lt (hbefore q hq1 h1 h2)
      · rcases List.mem_cons.mp hq2 with hqp | hq2'
        · subst hqp
          exact Nat.le_refl _
        · exact hafter q hq2' h1
    · intro q hq h1 h2
      have hqmem : q ∈ allPositions := mem_allPositions.mpr hq
      rw [hL] at hqmem
      have hsorted := allPositions_sorted
      rw [hL] at hsorted
      rcases List.mem_append.mp hqmem with hq1 | hq2
      · -- q lies strictly before p in row-major order, so it cannot attain
        -- the minimum: contradiction with the strict improvement condition
        exfalso
        have hlt := hbefore q hq1 h1 (by omega)
        omega
      · rcases List.mem_cons.mp hq2 with hqp | hq2'
        · subst hqp
          exact Nat.le_refl _
        · have := (List.pairwise_append.mp hsorted).2.1
          exact Nat.le_of_lt ((List.pairwise_cons.mp this).1 q hq2')

theorem mrvSelector_good : GoodSelector mrvSelector := by
  intro g p h
  unfold mrvSelector at h
  split at h
  · cases h
  · rename_i hne
    injection h with h'
    subst h'
    rcases MRV.select_spec g with ⟨heq, _⟩ | ⟨p', heq, hr, h1, _, _, _⟩
    · exact absurd heq hne
    · rw [heq]
      exact ⟨hr, h1⟩

-- Total-function wrappers of the run lemmas.

theorem AC3.consistency_size (g : Cells) (Q : List Pos) :
    totalSize (AC3.consistency g Q).1 ≤ totalSize g := by
  have h := AC3.consistency_total g Q
  rcases hc : AC3.consistency g Q with ⟨g', b⟩
  rw [hc] at h
  exact AC3.consistencyF_size h

theorem AC3.consistency_nonempty (g : Cells) (Q : List Pos) :
    ∀ a c : Nat, Grid.get_cell g a c ≠ [] →
      Grid.get_cell (AC3.consistency g Q).1 a c ≠ [] := by
  have h := AC3.consistency_total g Q
  rcases hc : AC3.consistency g Q with ⟨g', b⟩
  rw [hc] at h
  exact AC3.consistencyF_nonempty h

theorem AC3.consistency_sublist (g : Cells) (Q : List Pos) :
    ∀ a c : Nat, (Grid.get_cell (AC3.consistency g Q).1 a c).Sublist
      (Grid.get_cell g a c) := by
  have h := AC3.consistency_total g Q
  rcases hc : AC3.consistency g Q with ⟨g', b⟩
  rw [hc] at h
  exact AC3.consistencyF_sublist h

theorem AC3.consistency_dims (g : Cells) (Q : List Pos) :
    (AC3.consistency g Q).1.length = g.length ∧
      ∀ a : Nat, (((AC3.consistency g Q).1.getD a []).length
        = (g.getD a []).length) := by
  have h := AC3.consistency_total g Q
  rcases hc : AC3.consistency g Q with ⟨g', b⟩
  rw [hc] at h
  exact AC3.consistencyF_dims h

theorem AC3.consistency_noConflict {g : Cells} {Q : List Pos} {g' : Cells}
    (hc : AC3.consistency g Q = (g', true)) (hpend : PendingConflicts g Q) :
    NoConflict g' := by
  have h := AC3.consistency_total g Q
  rw [hc] at h
  exact AC3.consistencyF_noConflict h hpend

theorem AC3.consistency_doomed {g : Cells} {Q : List Pos}
    (hdoom : Doomed g Q) : (AC3.consistency g Q).2 = false := by
  have h := AC3.consistency_total g Q
  rcases hc : AC3.consistency g Q with ⟨g', b⟩
  rw [hc] at h
  exact AC3.consistencyF_doomed h hdoom

-- Termination of the backtracking search: the fuel `totalSize g + 1` always
-- suffices under either selector.

theorem Backtracking.fuel_suff (sel : Selector) (hsel : GoodSelector sel) :
    ∀ n : Nat,
      (∀ g : Cells, totalSize g < n →
        (Backtracking.search n sel g).isSome = true) ∧
      (∀ (g : Cells) (var : Pos) (ds : Dom),
        1 < (Grid.get_cell g var.1 var.2).length → totalSize g ≤ n →
        (Backtracking.tryCands n sel g var ds).isSome = true) := by
  intro n
  induction n with
  | zero =>
    constructor
    · intro g h
      exact absurd h (Nat.not_lt_zero _)
    · intro g var ds hvar hsz
      have := cell_length_le_totalSize g var.1 var.2
      omega
  | succ k ih =>
    have hsearch : ∀ g : Cells, totalSize g < k + 1 →
        (Backtracking.search (k + 1) sel g).isSome = true := by
      intro g hg
      simp only [Backtracking.search]
      split
      · simp
      · rcases hs : sel g with _ | var
        · simp
        · simp only
          obtain ⟨hr, hlen⟩ := hsel g var hs
          exact ih.2 g var _ hlen (by omega)
    refine ⟨hsearch, ?_⟩
    intro g var ds hvar hsz
    induction ds with
    | nil => simp [Backtracking.tryCands, Backtracking.searchLoop]
    | cons d ds ihd =>
      simp only [Backtracking.tryCands, Backtracking.searchLoop]
      split
      · rcases hcon : AC3.consistency (Grid.set_cell g var.1 var.2 [d]) [var]
          with ⟨g2, bb⟩
        rcases bb with _ | _
        · simp only [hcon]
          exact ihd
        · simp only [hcon]
          have hrange : var.1 < g.length ∧ var.2 < (g.getD var.1 []).length := by
            refine Grid.get_cell_ne_nil_range g var.1 var.2 ?_
            intro hnil
            rw [hnil] at hvar
            simp at hvar
          have hset := totalSize_set_cell_le g var.1 var.2 [d]
          have hg2 : totalSize g2 ≤ totalSize (Grid.set_cell g var.1 var.2 [d]) := by
            have := AC3.consistency_size (Grid.set_cell g var.1 var.2 [d]) [var]
            rw [hcon] at this
            exact this
          have hg2lt : totalSize g2 < k + 1 := by
            simp only [List.length_cons, List.length_nil] at hset
            omega
          have := hsearch g2 hg2lt
          rcases hrun : Backtracking.search (k + 1) sel g2 with _ | out
          · rw [hrun] at this
            simp at this
          · rcases out with rb | _ | _
            · simp
            · exact ihd
            · simp
      · exact ihd

-- Invariants carried by the search.

/-- The grid is a full 9x9 matrix. -/
def Dims9 (g : Cells) : Prop :=
  g.length = 9 ∧ ∀ a : Nat, a < 9 → (g.getD a []).length = 9

/-- Every domain only holds symbols of the fixed alphabet. -/
def SubAlpha (g : Cells) : Prop :=
  ∀ a : Nat, a < 9 → ∀ b : Nat, b < 9 →
    ∀ x ∈ Grid.get_cell g a b, x ∈ complete_domain

/-- The well-formedness the search preserves: full 9x9 shape, alphabet
domains, and no duplicated assignment inside any unit. -/
def SearchInv (g : Cells) : Prop := Dims9 g ∧ SubAlpha g ∧ NoConflict g

theorem Dims9.set_cell {g : Cells} (h : Dims9 g) (i j : Nat) (v : Dom) :
    Dims9 (Grid.set_cell g i j v) := by
  refine ⟨(Grid.length_set_cell g i j v).trans h.1, fun a ha => ?_⟩
  rw [Grid.row_length_set_cell]
  exact h.2 a ha

theorem Dims9.consistency {g : Cells} (h : Dims9 g) (Q : List Pos) :
    Dims9 (AC3.consistency g Q).1 := by
  obtain ⟨h1, h2⟩ := AC3.consistency_dims g Q
  exact ⟨h1.trans h.1, fun a ha => (h2 a).trans (h.2 a ha)⟩

theorem SubAlpha.consistency_pres {g : Cells} (h : SubAlpha g) (Q : List Pos) :
    SubAlpha (AC3.consistency g Q).1 := by
  intro a ha b hb x hx
  exact h a ha b hb x ((AC3.consistency_sublist g Q a b).subset hx)

/-- If the local consistency check of `search` accepts `d` at `var`, no
assigned peer of `var` holds exactly `[d]`. -/
theorem Backtracking.isConsistent_spec {g : Cells} {var : Pos} {d : Char}
    (h : Backtracking.isConsistent g var d = true) :
    ∀ p : Pos, inRange p → p ≠ var → sameUnit p var →
      Grid.get_cell g p.1 p.2 ≠ [d] := by
  have h3 := h
  unfold Backtracking.isConsistent at h3
  simp only [Bool.and_eq_true, Bool.not_eq_true'] at h3
  obtain ⟨⟨hrow, hcol⟩, hunit⟩ := h3
  intro p hp hne hu hcell
  rcases hu with hu | hu | hu
  · -- same row
    have hmem : d ∈ Backtracking.getRowValues g var := by
      unfold Backtracking.getRowValues
      refine List.mem_flatMap.mpr ⟨p.2, List.mem_range.mpr hp.2, ?_⟩
      rw [← hu, hcell]
      simp
    have he := List.elem_eq_true_of_mem hmem
    have hrow' : (Backtracking.getRowValues g var).elem d = false := hrow
    rw [he] at hrow'
    cases hrow'
  · -- same column
    have hmem : d ∈ Backtracking.getColumnValues g var := by
      unfold Backtracking.getColumnValues
      refine List.mem_flatMap.mpr ⟨p.1, List.mem_range.mpr hp.1, ?_⟩
      rw [← hu, hcell]
      simp
    have he := List.elem_eq_true_of_mem hmem
    have hcol' : (Backtracking.getColumnValues g var).elem d = false := hcol
    rw [he] at hcol'
    cases hcol'
  · -- same box
    have hmem : d ∈ Backtracking.getUnitValues g var := by
      unfold Backtracking.getUnitValues
      refine List.mem_flatMap.mpr ⟨p, ?_, ?_⟩
      · refine List.mem_filter.mpr ⟨mem_boxPositions.mpr ⟨hu.1, hu.2⟩, ?_⟩
        simp only [bne_iff_ne, ne_eq]
        exact hne
      · rw [hcell]
        simp
    have he := List.elem_eq_true_of_mem hmem
    have hunit' : (Backtracking.getUnitValues g var).elem d = false := hunit
    rw [he] at hunit'
    cases hunit'

/-- Assigning a locally consistent candidate keeps the grid conflict-free. -/
theorem NoConflict.assign {g : Cells} {var : Pos} {d : Char}
    (hg : NoConflict g) (hcons : Backtracking.isConsistent g var d = true) :
    NoConflict (Grid.set_cell g var.1 var.2 [d]) := by
  rcases Grid.set_cell_cases g var.1 var.2 [d] with ⟨hi, hj⟩ | heq
  · intro p q hpq hp hq hu hplen hqe
    by_cases hpv : p = var
    · subst hpv
      have hcp : Grid.get_cell (Grid.set_cell g p.1 p.2 [d]) p.1 p.2 = [d] :=
        Grid.get_set_same g p.1 p.2 [d] hi hj
      have hq' : Grid.get_cell (Grid.set_cell g p.1 p.2 [d]) q.1 q.2
          = Grid.get_cell g q.1 q.2 := by
        refine Grid.get_set_ne g [d] ?_
        intro hc
        exact hpq (Prod.ext (congrArg Prod.fst hc) (congrArg Prod.snd hc)).symm
      rw [hcp, hq'] at hqe
      exact Backtracking.isConsistent_spec hcons q hq (Ne.symm hpq)
        (sameUnit_symm hu) hqe
    · have hp' : Grid.get_cell (Grid.set_cell g var.1 var.2 [d]) p.1 p.2
          = Grid.get_cell g p.1 p.2 := by
        refine Grid.get_set_ne g [d] ?_
        intro hc
        exact hpv (Prod.ext (congrArg Prod.fst hc) (congrArg Prod.snd hc))
      by_cases hqv : q = var
      · subst hqv
        have hcq : Grid.get_cell (Grid.set_cell g q.1 q.2 [d]) q.1 q.2 = [d] :=
          Grid.get_set_same g q.1 q.2 [d] hi hj
        rw [hcq, hp'] at hqe
        exact Backtracking.isConsistent_spec hcons p hp hpv hu hqe.symm
      · have hq' : Grid.get_cell (Grid.set_cell g var.1 var.2 [d]) q.1 q.2
            = Grid.get_cell g q.1 q.2 := by
          refine Grid.get_set_ne g [d] ?_
          intro hc
          exact hqv (Prod.ext (congrArg Prod.fst hc) (congrArg Prod.snd hc))
        rw [hp', hq'] at hqe
        rw [hp'] at hplen
        exact hg p q hpq hp hq hu hplen hqe
  · rw [heq]
    exact hg

theorem SubAlpha.assign_cell {g : Cells} {var : Pos} {d : Char} (hg : SubAlpha g)
    (hd : d ∈ Grid.get_cell g var.1 var.2) :
    SubAlpha (Grid.set_cell g var.1 var.2 [d]) := by
  intro a ha b hb x hx
  by_cases hab : (a, b) = (var.1, var.2)
  · have h1 : var.1 = a := (congrArg Prod.fst hab).symm
    have h2 : var.2 = b := (congrArg Prod.snd hab).symm
    subst h1; subst h2
    rcases Grid.get_set_cases g var.1 var.2 [d] var.1 var.2 with hc | hc
    · rw [hc] at hx
      simp only [List.mem_singleton] at hx
      subst hx
      exact hg var.1 ha var.2 hb x hd
    · rw [hc] at hx
      exact hg var.1 ha var.2 hb x hx
  · rw [Grid.get_set_ne g [d] hab] at hx
    exact hg a ha b hb x hx

/-- The backtracking search preserves the well-formedness invariant, and any
grid it returns as a solution is complete and still satisfies it. -/
theorem Backtracking.search_tryCands_inv (sel : Selector) :
    ∀ n : Nat,
      (∀ g g' : Cells, SearchInv g →
        Backtracking.search n sel g = some (SearchOut.found g') →
        SearchInv g' ∧ Grid.is_solved g' = true) ∧
      (∀ (g : Cells) (var : Pos) (ds : Dom) (g' : Cells), SearchInv g →
        (∀ d ∈ ds, d ∈ Grid.get_cell g var.1 var.2) →
        Backtracking.tryCands n sel g var ds = some (SearchOut.found g') →
        SearchInv g' ∧ Grid.is_solved g' = true) := by
  have htry : ∀ n : Nat,
      (∀ g g' : Cells, SearchInv g →
        Backtracking.search n sel g = some (SearchOut.found g') →
        SearchInv g' ∧ Grid.is_solved g' = true) →
      (∀ (g : Cells) (var : Pos) (ds : Dom) (g' : Cells), SearchInv g →
        (∀ d ∈ ds, d ∈ Grid.get_cell g var.1 var.2) →
        Backtracking.tryCands n sel g var ds = some (SearchOut.found g') →
        SearchInv g' ∧ Grid.is_solved g' = true) := by
    intro n hs g var ds
    induction ds with
    | nil =>
      intro g' hinv hsub hrun
      simp only [Backtracking.tryCands, Backtracking.searchLoop] at hrun
      cases hrun
    | cons d ds ihd =>
      intro g' hinv hsub hrun
      simp only [Backtracking.tryCands, Backtracking.searchLoop] at hrun
      split at hrun
      · rename_i hcons
        rcases hcon : AC3.consistency (Grid.set_cell g var.1 var.2 [d]) [var]
          with ⟨g2, bb⟩
        rcases bb with _ | _
        · simp only [hcon] at hrun
          exact ihd g' hinv (fun x hx => hsub x (List.mem_cons_of_mem d hx)) hrun
        · simp only [hcon] at hrun
          have hinv1 : SearchInv (Grid.set_cell g var.1 var.2 [d]) := by
            refine ⟨hinv.1.set_cell var.1 var.2 [d],
              hinv.2.1.assign_cell (hsub d (List.mem_cons_self d ds)),
              hinv.2.2.assign hcons⟩
          have hinv2 : SearchInv g2 := by
            refine ⟨?_, ?_, ?_⟩
            · have := hinv1.1.consistency [(var.1, var.2)]
              rw [hcon] at this
              exact this
            · have := hinv1.2.1.consistency_pres [(var.1, var.2)]
              rw [hcon] at this
              exact this
            · exact AC3.consistency_noConflict hcon
                (hinv1.2.2.pending [(var.1, var.2)])
          rcases hrun2 : Backtracking.search n sel g2 with _ | out
          · simp only [hrun2] at hrun
            cases hrun
          · simp only [hrun2] at hrun
            rcases out with rb | _ | _
            · injection hrun with hout
              injection hout with hrb
              subst hrb
              exact hs g2 rb hinv2 hrun2
            · exact ihd g' hinv (fun x hx => hsub x (List.mem_cons_of_mem d hx)) hrun
            · cases hrun
      · exact ihd g' hinv (fun x hx => hsub x (List.mem_cons_of_mem d hx)) hrun
  intro n
  induction n with
  | zero =>
    constructor
    · intro g g' _ hrun
      simp [Backtracking.search] at hrun
    · exact htry 0 (by
        intro g g' _ hrun
        simp [Backtracking.search] at hrun)
  | succ k ih =>
    have hsearch : ∀ g g' : Cells, SearchInv g →
        Backtracking.search (k + 1) sel g = some (SearchOut.found g') →
        SearchInv g' ∧ Grid.is_solved g' = true := by
      intro g g' hinv hrun
      simp only [Backtracking.search] at hrun
      split at hrun
      · rename_i hsolved
        injection hrun with hout
        injection hout with hg'
        subst hg'
        exact ⟨hinv, hsolved⟩
      · rcases hs : sel g with _ | var
        · rw [hs] at hrun
          cases hrun
        · rw [hs] at hrun
          exact htry k ih.1 g var _ g' hinv (fun d hd => hd) hrun
    exact ⟨hsearch, htry (k + 1) hsearch⟩

-- Units of the board and the exactly-once property.

/-- The 27 units of the board: 9 rows, 9 columns, 9 boxes, each as its list
of 9 positions. -/
def unitCells : List (List Pos) :=
  ((List.range 9).map fun i => (List.range 9).map fun j => ((i, j) : Pos)) ++
  ((List.range 9).map fun j => (List.range 9).map fun i => ((i, j) : Pos)) ++
  ((List.range 3).flatMap fun bi => (List.range 3).map fun bj =>
    (List.range 3).flatMap fun a => (List.range 3).map fun b =>
      ((3 * bi + a, 3 * bj + b) : Pos))

/-- Every row, column and box contains, for each of the 9 symbols, exactly
one cell whose domain is exactly that singleton symbol. -/
def unitsOnceB (g : Cells) : Bool :=
  unitCells.all fun u => complete_domain.all fun c =>
    (u.map fun p => Grid.get_cell g p.1 p.2).count [c] == 1

theorem unitCells_structure :
    ∀ u ∈ unitCells, u.length = 9 ∧ (∀ p ∈ u, inRange p) ∧
      u.Pairwise (fun p q => p ≠ q ∧ sameUnit p q) := by decide

theorem count_singleton_alpha :
    ∀ c ∈ complete_domain,
      ((complete_domain.map fun x => ([x] : Dom)).count [c]) = 1 := by decide

theorem Grid.is_solved_spec {g : Cells} (h : Grid.is_solved g = true) :
    ∀ p : Pos, inRange p → (Grid.get_cell g p.1 p.2).length = 1 := by
  intro p hp
  unfold Grid.is_solved at h
  simp only [List.all_eq_true, List.mem_range, beq_iff_eq] at h
  exact h p.1 hp.1 p.2 hp.2

/-- A complete, well-formed, conflict-free grid satisfies the exactly-once
property in every unit. -/
theorem solved_inv_unitsOnce {g : Cells} (hinv : SearchInv g)
    (hsolved : Grid.is_solved g = true) : unitsOnceB g = true := by
  unfold unitsOnceB
  simp only [List.all_eq_true, beq_iff_eq]
  intro u hu c hc
  obtain ⟨hlen, hrange, hpw⟩ := unitCells_structure u hu
  have hvals_nodup : (u.map fun p => Grid.get_cell g p.1 p.2).Nodup := by
    have hp2 : u.Pairwise fun p q =>
        Grid.get_cell g p.1 p.2 ≠ Grid.get_cell g q.1 q.2 := by
      refine hpw.imp_of_mem ?_
      intro p q hp hq hpq he
      exact hinv.2.2 p q hpq.1 (hrange p hp) (hrange q hq) hpq.2
        (Grid.is_solved_spec hsolved p (hrange p hp)) he.symm
    exact List.pairwise_map.mpr hp2
  have hsubset : ∀ x ∈ (u.map fun p => Grid.get_cell g p.1 p.2),
      x ∈ complete_domain.map fun ch => ([ch] : Dom) := by
    intro x hx
    obtain ⟨p, hp, rfl⟩ := List.mem_map.mp hx
    have hlen1 := Grid.is_solved_spec hsolved p (hrange p hp)
    obtain ⟨ch, hch⟩ := List.length_eq_one.mp hlen1
    refine List.mem_map.mpr ⟨ch, ?_, hch.symm⟩
    exact hinv.2.1 p.1 (hrange p hp).1 p.2 (hrange p hp).2 ch (by rw [hch]; simp)
  have hperm : List.Perm (u.map fun p => Grid.get_cell g p.1 p.2)
      (complete_domain.map fun ch => ([ch] : Dom)) := by
    refine (List.subperm_of_subset hvals_nodup hsubset).perm_of_length_le ?_
    simp [hlen, complete_domain]
  have hcnt := hperm.countP_eq (fun x => x == ([c] : Dom))
  have h1 : List.count ([c] : Dom) (u.map fun p => Grid.get_cell g p.1 p.2)
      = List.countP (fun x => x == ([c] : Dom))
        (u.map fun p => Grid.get_cell g p.1 p.2) := rfl
  have h2 : List.countP (fun x => x == ([c] : Dom))
        (complete_domain.map fun ch => ([ch] : Dom))
      = List.count ([c] : Dom) (complete_domain.map fun ch => ([ch] : Dom)) :=
    rfl
  rw [h1, hcnt, h2]
  exact count_singleton_alpha c hc

-- The per-candidate outcome of the search loop, for stating the control
-- flow of `Backtracking.search`.

/-- Outcome of trying one candidate `d` at `var` (one iteration of the loop
body, main.py lines 410-424): `failure` when the local check rejects `d` or
propagation detects a contradiction or the recursive call returns `0`;
otherwise the recursive call's outcome. -/
def Backtracking.branchRes (n : Nat) (sel : Selector) (g : Cells) (var : Pos)
    (d : Char) : Option SearchOut :=
  if Backtracking.isConsistent g var d then
    match AC3.consistency (Grid.set_cell g var.1 var.2 [d]) [var] with
    | (_, false) => some SearchOut.failure
    | (g2, true) =>
      match Backtracking.search n sel g2 with
      | none => none
      | some (SearchOut.found rb) => some (SearchOut.found rb)
      | some SearchOut.stuck => some SearchOut.stuck
      | some SearchOut.failure => some SearchOut.failure
  else some SearchOut.failure

theorem Backtracking.tryCands_cons (n : Nat) (sel : Selector) (g : Cells)
    (var : Pos) (d : Char) (ds : Dom) :
    Backtracking.tryCands n sel g var (d :: ds) =
      match Backtracking.branchRes n sel g var d with
      | some SearchOut.failure => Backtracking.tryCands n sel g var ds
      | r => r := by
  simp only [Backtracking.tryCands, Backtracking.searchLoop, Backtracking.branchRes]
  split
  · rcases hcon : AC3.consistency (Grid.set_cell g var.1 var.2 [d]) [var]
      with ⟨g2, bb⟩
    try simp only [hcon]
    rcases bb with _ | _
    · try simp only [hcon]
      try rfl
    · try simp only [hcon]
      rcases hrun : Backtracking.search n sel g2 with _ | out
      · try simp only [hrun]
        try rfl
      · try simp only [hrun]
        rcases out with rb | _ | _ <;> rfl
  · rfl

theorem Backtracking.tryCands_first_found (n : Nat) (sel : Selector)
    (g : Cells) (var : Pos) :
    ∀ (pre : Dom) (d : Char) (post : Dom) (s : Cells),
      (∀ e ∈ pre, Backtracking.branchRes n sel g var e
        = some SearchOut.failure) →
      Backtracking.branchRes n sel g var d = some (SearchOut.found s) →
      Backtracking.tryCands n sel g var (pre ++ d :: post)
        = some (SearchOut.found s) := by
  intro pre
  induction pre with
  | nil =>
    intro d post s _ hd
    rw [List.nil_append, Backtracking.tryCands_cons, hd]
  | cons e pre ih =>
    intro d post s hpre hd
    rw [List.cons_append, Backtracking.tryCands_cons,
      hpre e (List.mem_cons_self e pre)]
    exact ih d post s (fun x hx => hpre x (List.mem_cons_of_mem e hx)) hd

theorem Backtracking.tryCands_failure_iff (n : Nat) (sel : Selector)
    (g : Cells) (var : Pos) :
    ∀ ds : Dom,
      (Backtracking.tryCands n sel g var ds = some SearchOut.failure ↔
        ∀ d ∈ ds, Backtracking.branchRes n sel g var d
          = some SearchOut.failure) := by
  intro ds
  induction ds with
  | nil =>
    simp [Backtracking.tryCands, Backtracking.searchLoop]
  | cons d ds ih =>
    rw [Backtracking.tryCands_cons]
    constructor
    · intro h x hx
      rcases hbr : Backtracking.branchRes n sel g var d with _ | out
      · rw [hbr] at h
        cases h
      · rcases out with rb | _ | _
        · rw [hbr] at h
          cases h
        · rw [hbr] at h
          rcases List.mem_cons.mp hx with hxd | hxds
          · subst hxd
            exact hbr
          · exact ih.mp h x hxds
        · rw [hbr] at h
          cases h
    · intro h
      rw [h d (List.mem_cons_self d ds)]
      exact ih.mpr fun x hx => h x (List.mem_cons_of_mem d hx)

-- Facts about grid initialization.

theorem Grid.readFileAux_spec :
    ∀ (s : List Char) (i : Nat) (row : List Dom) (cells : Cells),
      row.length = i % 9 → (∀ r ∈ cells, r.length = 9) →
      (Grid.readFileAux s i row cells).length
          = cells.length + (row.length + s.length) / 9 ∧
        ∀ r ∈ Grid.readFileAux s i row cells, r.length = 9 := by
  intro s
  induction s with
  | nil =>
    intro i row cells hrow hcells
    simp only [Grid.readFileAux, List.length_nil, Nat.add_zero]
    have h9 : row.length < 9 := by omega
    rw [Nat.div_eq_of_lt h9]
    exact ⟨rfl, hcells⟩
  | cons p rest ih =>
    intro i row cells hrow hcells
    simp only [Grid.readFileAux]
    by_cases hmod : (i + 1) % 9 = 0
    · rw [if_pos hmod]
      have h8 : row.length = 8 := by omega
      obtain ⟨hl, hr⟩ := ih (i + 1) []
        (cells ++ [row ++ [if p = '.' then complete_domain else [p]]])
        (by simp [hmod])
        (by
          intro r hrm
          rcases List.mem_append.mp hrm with hm | hm
          · exact hcells r hm
          · simp only [List.mem_singleton] at hm
            subst hm
            simp [h8])
      refine ⟨?_, hr⟩
      rw [hl]
      simp only [List.length_append, List.length_nil, List.length_cons]
      omega
    · rw [if_neg hmod]
      obtain ⟨hl, hr⟩ := ih (i + 1)
        (row ++ [if p = '.' then complete_domain else [p]]) cells
        (by simp only [List.length_append, List.length_cons, List.length_nil]
            omega)
        hcells
      refine ⟨?_, hr⟩
      rw [hl]
      simp only [List.length_append, List.length_cons, List.length_nil]
      omega

theorem Grid.read_file_shape (s : List Char) :
    (Grid.read_file s).length = s.length / 9 ∧
      ∀ r ∈ Grid.read_file s, r.length = 9 := by
  have h := Grid.readFileAux_spec s 0 [] [] (by simp) (by simp)
  simpa [Grid.read_file] using h

theorem Grid.readFileAux_nonempty :
    ∀ (s : List Char) (i : Nat) (row : List Dom) (cells : Cells),
      (∀ r ∈ cells, ∀ x ∈ r, x ≠ ([] : Dom)) →
      (∀ x ∈ row, x ≠ ([] : Dom)) →
      ∀ r ∈ Grid.readFileAux s i row cells, ∀ x ∈ r, x ≠ ([] : Dom) := by
  intro s
  induction s with
  | nil =>
    intro i row cells hcells _
    simpa [Grid.readFileAux] using hcells
  | cons p rest ih =>
    intro i row cells hcells hrow
    have hrow' : ∀ x ∈ row ++ [if p = '.' then complete_domain else [p]],
        x ≠ ([] : Dom) := by
      intro x hx
      rcases List.mem_append.mp hx with hm | hm
      · exact hrow x hm
      · simp only [List.mem_singleton] at hm
        subst hm
        split <;> simp [complete_domain]
    simp only [Grid.readFileAux]
    split
    · refine ih (i + 1) [] _ ?_ (by simp)
      intro r hrm
      rcases List.mem_append.mp hrm with hm | hm
      · exact hcells r hm
      · simp only [List.mem_singleton] at hm
        subst hm
        exact hrow'
    · exact ih (i + 1) _ cells hcells hrow'

theorem Grid.read_file_nonempty {s : List Char} (h81 : s.length = 81) :
    ∀ i j : Nat, i < 9 → j < 9 →
      Grid.get_cell (Grid.read_file s) i j ≠ [] := by
  obtain ⟨hlen, hrows⟩ := Grid.read_file_shape s
  rw [h81] at hlen
  intro i j hi hj
  have hi' : i < (Grid.read_file s).length := by omega
  have hrowmem : (Grid.read_file s).getD i [] ∈ Grid.read_file s := by
    rw [List.getD_eq_getElem _ _ hi']
    exact List.getElem_mem _
  have hrowlen : ((Grid.read_file s).getD i []).length = 9 :=
    hrows _ hrowmem
  have hj' : j < ((Grid.read_file s).getD i []).length := by omega
  have hcellmem : ((Grid.read_file s).getD i []).getD j []
      ∈ (Grid.read_file s).getD i [] := by
    rw [List.getD_eq_getElem _ _ hj']
    exact List.getElem_mem _
  exact Grid.readFileAux_nonempty s 0 [] [] (by simp) (by simp) _ hrowmem _
    hcellmem

-- Grid states reachable through the engine's operations.

/-- Grid states produced by the engine: initialization from an 81-character
puzzle, any `AC3.consistency` call (successful or flagged as a
contradiction — the source keeps using the mutated grid either way), and the
tentative assignment `copy_A.get_cells()[var[0]][var[1]] = d` performed on a
clone during search, where `d` is drawn from the cell's current domain. -/
inductive Reachable : Cells → Prop where
  | init (s : List Char) (h : s.length = 81) : Reachable (Grid.read_file s)
  | propagate (g : Cells) (Q : List Pos) : Reachable g →
      Reachable (AC3.consistency g Q).1
  | assign (g : Cells) (i j : Nat) (d : Char) : Reachable g →
      d ∈ Grid.get_cell g i j → Reachable (Grid.set_cell g i j [d])

theorem Reachable.nonempty {g : Cells} (h : Reachable g) :
    ∀ i j : Nat, i < 9 → j < 9 → Grid.get_cell g i j ≠ [] := by
  induction h with
  | init s h81 => exact Grid.read_file_nonempty h81
  | propagate g Q _ ih =>
    intro i j hi hj
    exact AC3.consistency_nonempty g Q i j (ih i j hi hj)
  | assign g i0 j0 d _ hd ih =>
    intro i j hi hj
    rcases Grid.get_set_cases g i0 j0 [d] i j with hc | hc
    · rw [hc]
      simp
    · rw [hc]
      exact ih i j hi hj

-- A heap model of grid rows, for the cloning discipline of the search:
-- `Grid.copy` (main.py lines 53-59) builds `[row.copy() for row in
-- self._cells]`, i.e. freshly allocated row objects with equal contents,
-- and every write of the search goes through such a clone.

/-- A store of row objects, indexed by allocation order. -/
abbrev RowStore := List (List Dom)

/-- A grid object as a list of row-object ids into the store. -/
abbrev GridRef := List Nat

/-- The cell matrix denoted by a grid reference. -/
def derefGrid (st : RowStore) (ref : GridRef) : Cells :=
  ref.map fun id => st.getD id []

/-- `Grid.copy`: allocate a fresh row object for each row (Python
`row.copy()`), returning the extended store and the new grid's row ids. -/
def copyGrid (st : RowStore) (ref : GridRef) : RowStore × GridRef :=
  (st ++ ref.map fun id => st.getD id [],
    (List.range ref.length).map fun k => st.length + k)

/-- `grid.get_cells()[i][j] = v` through a grid reference: mutate the store
at the row object the reference designates. -/
def setCellS (st : RowStore) (ref : GridRef) (i j : Nat) (v : Dom) :
    RowStore :=
  let id := ref.getD i st.length
  st.set id ((st.getD id []).set j v)

/-- An arbitrary sequence of cell writes performed through one grid
reference. -/
def writesThrough (ref : GridRef) : RowStore → List (Nat × Nat × Dom) →
    RowStore
  | st, [] => st
  | st, w :: ws => writesThrough ref (setCellS st ref w.1 w.2.1 w.2.2) ws

theorem length_setCellS (st : RowStore) (ref : GridRef) (i j : Nat)
    (v : Dom) : (setCellS st ref i j v).length = st.length := by
  unfold setCellS
  simp

theorem getD_setCellS_untouched (st : RowStore) (ref : GridRef) (i j : Nat)
    (v : Dom) (id : Nat) (hid : id ∉ ref) :
    (setCellS st ref i j v).getD id [] = st.getD id [] := by
  unfold setCellS
  simp only
  by_cases hi : i < ref.length
  · have hmem : ref.getD i st.length ∈ ref := by
      rw [List.getD_eq_getElem _ _ hi]
      exact List.getElem_mem _
    refine List.getD_set_ne st _ [] ?_
    intro hc
    exact hid (hc ▸ hmem)
  · rw [List.getD_eq_default ref _ (Nat.le_of_not_lt hi)]
    rw [List.set_oor _ _ _ (Nat.le_refl _)]

theorem writesThrough_frame (ref' : GridRef) :
    ∀ (ws : List (Nat × Nat × Dom)) (st : RowStore) (id : Nat), id ∉ ref' →
      (writesThrough ref' st ws).getD id [] = st.getD id [] := by
  intro ws
  induction ws with
  | nil =>
    intro st id _
    rfl
  | cons w ws ih =>
    intro st id hid
    simp only [writesThrough]
    rw [ih (setCellS st ref' w.1 w.2.1 w.2.2) id hid]
    exact getD_setCellS_untouched st ref' w.1 w.2.1 w.2.2 id hid

-- Executable conflict check (for evaluating `NoConflict` on concrete grids).

/-- Boolean version of `sameUnit`. -/
def sameUnitB (p q : Pos) : Bool :=
  (p.1 == q.1) || (p.2 == q.2) || ((p.1 / 3 == q.1 / 3) && (p.2 / 3 == q.2 / 3))

theorem sameUnitB_iff {p q : Pos} : sameUnitB p q = true ↔ sameUnit p q := by
  unfold sameUnitB
  simp only [Bool.or_eq_true, Bool.and_eq_true, beq_iff_eq]
  tauto

/-- Boolean version of `NoConflict`. -/
def noConflictB (g : Cells) : Bool :=
  allPositions.all fun p => allPositions.all fun q =>
    (p == q) || !(sameUnitB p q) || ((Grid.get_cell g p.1 p.2).length != 1) ||
    !((Grid.get_cell g q.1 q.2) == (Grid.get_cell g p.1 p.2))

theorem noConflictB_sound {g : Cells} (h : noConflictB g = true) :
    NoConflict g := by
  intro p q hpq hp hq hu hlen heq
  unfold noConflictB at h
  simp only [List.all_eq_true] at h
  have hh := h p (mem_allPositions.mpr hp) q (mem_allPositions.mpr hq)
  rw [Bool.or_eq_true, Bool.or_eq_true, Bool.or_eq_true] at hh
  rcases hh with ((hc | hc) | hc) | hc
  · exact hpq (beq_iff_eq.mp hc)
  · rw [Bool.not_eq_true'] at hc
    cases (sameUnitB_iff.mpr hu).symm.trans hc
  · exact bne_iff_ne.mp hc hlen
  · rw [Bool.not_eq_true'] at hc
    cases (beq_iff_eq.mpr heq).symm.trans hc

-- Concrete grids used to settle the claims.

/-- The grid of 81 cells each assigned `1`: complete in the sense of
`is_solved`, but wildly violating unit uniqueness. -/
def allOnes : Cells := List.replicate 9 (List.replicate 9 ['1'])

/-- The 81-character puzzle consisting only of the clue `5`. -/
def allFives : List Char := List.replicate 81 '5'

/-- A valid completed Sudoku grid (rows are cyclic shifts by 3, 1, 3, ...). -/
def validGrid : Cells :=
  [[['1'],['2'],['3'],['4'],['5'],['6'],['7'],['8'],['9']],
   [['4'],['5'],['6'],['7'],['8'],['9'],['1'],['2'],['3']],
   [['7'],['8'],['9'],['1'],['2'],['3'],['4'],['5'],['6']],
   [['2'],['3'],['4'],['5'],['6'],['7'],['8'],['9'],['1']],
   [['5'],['6'],['7'],['8'],['9'],['1'],['2'],['3'],['4']],
   [['8'],['9'],['1'],['2'],['3'],['4'],['5'],['6'],['7']],
   [['3'],['4'],['5'],['6'],['7'],['8'],['9'],['1'],['2']],
   [['6'],['7'],['8'],['9'],['1'],['2'],['3'],['4'],['5']],
   [['9'],['1'],['2'],['3'],['4'],['5'],['6'],['7'],['8']]]

/-- A grid whose cell `(0,0)` has been given the empty domain while every
other cell is assigned `1`: not complete, yet no cell has a domain larger
than one. -/
def gEmptyCell : Cells :=
  (([] : Dom) :: List.replicate 8 ['1']) ::
    List.replicate 8 (List.replicate 9 ['1'])

/-- A grid with two empty domains and all other cells assigned `1`. -/
def gTwoEmpty : Cells :=
  (([] : Dom) :: ([] : Dom) :: List.replicate 7 ['1']) ::
    List.replicate 8 (List.replicate 9 ['1'])

/-- A grid with one unassigned cell (domain `12` at `(0,0)`) and all other
cells assigned `1`. -/
def gOneBig : Cells :=
  (['1','2'] :: List.replicate 8 ['1']) ::
    List.replicate 8 (List.replicate 9 ['1'])

-- ===================================================================
-- Claim theorems.
-- ===================================================================

/-- Claim C2: for every grid and every queue, `AC3.consistency` returns the
failure flag `0` if and only if the `while Q` loop reaches a configuration
whose popped cell's removal pass would empty some peer's domain
(`AC3.process` reports `none`); in that case the returned grid is exactly the
grid of that failing iteration, with the rest of the queue abandoned, and
otherwise the loop runs until the queue is empty and returns success on the
final grid. -/
theorem C2_consistency_failure_characterization (g : Cells) (Q : List Pos) :
    ((AC3.consistency g Q).2 = false ↔
      ∃ (g' : Cells) (Q' : List Pos) (v : Pos) (g'' : Cells),
        AC3.Reaches g Q g' Q' ∧ Q'.getLast? = some v ∧
        AC3.process g' v = (g'', none) ∧
        AC3.consistency g Q = (g'', false)) ∧
    ((AC3.consistency g Q).2 = true ↔
      AC3.Reaches g Q (AC3.consistency g Q).1 []) := by
  have htotal := AC3.consistency_total g Q
  constructor
  · constructor
    · intro hfalse
      rcases hc : AC3.consistency g Q with ⟨h, b⟩
      rw [hc] at htotal hfalse
      simp only at hfalse
      subst hfalse
      obtain ⟨g', Q', v, g'', hre, hQ', hpr, hh⟩ :=
        AC3.consistencyF_fail_reaches htotal
      exact ⟨g', Q', v, g'', hre, hQ', hpr, by rw [hh]⟩
    · rintro ⟨g', Q', v, g'', _, _, _, hc⟩
      rw [hc]
  · constructor
    · intro htrue
      rcases hc : AC3.consistency g Q with ⟨h, b⟩
      rw [hc] at htotal htrue
      simp only at htrue
      subst htrue
      exact AC3.consistencyF_true_reaches htotal
    · intro hre
      rw [AC3.reaches_empty_consistency hre]

/-- Claim C3: evaluation at the failing input of 81 copies of the clue `5`
(two identical clues in row 0, among others).  The `AC3.consistency` call
made by `AC3.pre_process_consistency` does detect the contradiction (it
returns the failure flag `0`), but `pre_process_consistency` discards that
flag (main.py line 298) and the driver (main.py lines 441-442) goes on to
run `search` on the grid, which — the grid being all singletons — returns it
as a "solution" under either heuristic instead of reporting the puzzle as
unsolvable. -/
theorem C3_pipeline_on_duplicate_clues :
    (AC3.consistency (Grid.read_file allFives)
      (seedQ (Grid.read_file allFives))).2 = false ∧
    AC3.pre_process_consistency (Grid.read_file allFives)
      = Grid.read_file allFives ∧
    pipeline mrvSelector allFives
      = some (SearchOut.found (Grid.read_file allFives)) ∧
    pipeline faSelector allFives
      = some (SearchOut.found (Grid.read_file allFives)) := by
  refine ⟨?_, ?_, ?_, ?_⟩ <;> decide

/-- Claim C4 (counterexample): on an input of length 80 the initialization
`Grid.read_file` does not fail at all — the source has no `MalformedPuzzle`
(or any other) validation — it silently builds a truncated 8-row grid,
dropping the last 8 characters. -/
theorem C4_counterexample_length80 :
    Grid.read_file (List.replicate 80 '.')
      = List.replicate 8 (List.replicate 9 complete_domain) := by decide

/-- Claim C4 (amended): `Grid.read_file` accepts every input string without
any validation: it builds one row per 9 consumed characters
(`s.length / 9` rows of 9 domains each), silently discarding a trailing
partial row, and stores any non-placeholder character — even one outside
the `1`-`9` alphabet — verbatim as a singleton domain. -/
theorem C4_read_file_no_validation :
    (∀ s : List Char, (Grid.read_file s).length = s.length / 9 ∧
      ∀ r ∈ Grid.read_file s, r.length = 9) ∧
    Grid.read_file (List.replicate 81 'x')
      = List.replicate 9 (List.replicate 9 ['x']) :=
  ⟨Grid.read_file_shape, by decide⟩

/-- Claim C4 witness: the amended statement applied to the length-80 input. -/
theorem C4_witness :
    (Grid.read_file (List.replicate 80 '.')).length = 8 ∧
    (List.replicate 9 complete_domain).length = 9 :=
  ⟨((C4_read_file_no_validation.1 (List.replicate 80 '.')).1).trans (by decide),
    (C4_read_file_no_validation.1 (List.replicate 80 '.')).2
      (List.replicate 9 complete_domain) (by decide)⟩

/-- Claim C5: every grid state reachable through the engine's operations —
initialization from an 81-character puzzle, any `AC3.consistency` call
(flagged or not), and search's tentative assignments on clones — has all 81
cell domains nonempty; in particular no non-failed state ever stores an
empty domain (the removal loop returns the failure flag before performing a
write that would empty a domain). -/
theorem C5_reachable_domains_nonempty (g : Cells) (h : Reachable g) :
    ∀ i j : Nat, i < 9 → j < 9 → Grid.get_cell g i j ≠ [] :=
  h.nonempty

/-- Claim C5 witness: the freshly initialized empty puzzle is reachable and
its corner domain is nonempty. -/
theorem C5_witness :
    Reachable (Grid.read_file (List.replicate 81 '.')) ∧
      Grid.get_cell (Grid.read_file (List.replicate 81 '.')) 0 0 ≠ [] :=
  ⟨Reachable.init _ (by decide),
    C5_reachable_domains_nonempty _ (Reachable.init _ (by decide)) 0 0
      (by decide) (by decide)⟩

/-- Claim C9: the propagation and the search terminate on every input: the
fuel `consBound g Q = 2 * totalSize g + Q.length + 1` always suffices for
`AC3.consistency`, and the fuel `totalSize g + 1` always suffices for
`Backtracking.search` under either selector (`FirstAvailable` or `MRV`), so
the unbounded source loops always halt. -/
theorem C9_termination :
    (∀ (g : Cells) (Q : List Pos),
      (AC3.consistencyF (consBound g Q) g Q).isSome = true) ∧
    (∀ g : Cells,
      (Backtracking.search (totalSize g + 1) faSelector g).isSome = true) ∧
    (∀ g : Cells,
      (Backtracking.search (totalSize g + 1) mrvSelector g).isSome = true) :=
  ⟨fun g Q => AC3.consistencyF_suff (by unfold consBound; omega),
    fun g => (Backtracking.fuel_suff faSelector faSelector_good
      (totalSize g + 1)).1 g (by omega),
    fun g => (Backtracking.fuel_suff mrvSelector mrvSelector_good
      (totalSize g + 1)).1 g (by omega)⟩

/-- Claim C10: `Grid.copy` allocates fresh row objects (`[row.copy() for row
in self._cells]`), so every assignment and propagation write performed
through the clone — as all writes of `Backtracking.search` are — leaves
every domain of the caller's grid exactly as it was on entry, whatever the
sequence of writes. -/
theorem C10_clone_write_frame (st : RowStore) (ref : GridRef)
    (hvalid : ∀ id ∈ ref, id < st.length) (ws : List (Nat × Nat × Dom)) :
    derefGrid (writesThrough (copyGrid st ref).2 (copyGrid st ref).1 ws) ref
      = derefGrid st ref := by
  unfold derefGrid
  apply List.map_congr_left
  intro id hid
  have hfresh : id ∉ (copyGrid st ref).2 := by
    unfold copyGrid
    simp only [List.mem_map, List.mem_range]
    rintro ⟨k, _, hk⟩
    have := hvalid id hid
    omega
  rw [writesThrough_frame _ ws _ id hfresh]
  unfold copyGrid
  simp only
  exact List.getD_append _ _ _ _ (hvalid id hid)

/-- Claim C10 witness: a one-row store; a write through the clone leaves the
original grid's contents intact. -/
theorem C10_witness :
    (∀ id ∈ ([0] : GridRef), id < ([[['1']]] : RowStore).length) ∧
    derefGrid (writesThrough (copyGrid [[['1']]] [0]).2
      (copyGrid [[['1']]] [0]).1 [(0, 0, ['2'])]) [0]
      = derefGrid [[['1']]] [0] :=
  ⟨by decide, C10_clone_write_frame [[['1']]] [0] (by decide) [(0, 0, ['2'])]⟩

/-- Claim C1 (counterexample): `Backtracking.search` on the complete grid of
81 cells all assigned `1` returns that grid as a solution (with either
selector — shown here for `FirstAvailable`; `is_solved` checks only domain
sizes), yet its rows, columns and boxes do not contain each symbol exactly
once, refuting the claim as stated for arbitrary input grids. -/
theorem C1_counterexample_allOnes :
    Backtracking.search 1 faSelector allOnes
      = some (SearchOut.found allOnes) ∧
    Grid.is_solved allOnes = true ∧ unitsOnceB allOnes = false := by
  refine ⟨?_, ?_, ?_⟩ <;> decide

/-- Claim C1 (amended): for either selector, any grid returned as a solution
by `Backtracking.search` has every domain of size exactly 1; and provided
the input grid is a full 9x9 matrix over the alphabet whose assigned cells
are pairwise non-conflicting within rows, columns and boxes, the returned
grid additionally contains each of the 9 symbols exactly once in every row,
column and box. -/
theorem C1_search_solution (n : Nat) (sel : Selector) (g g' : Cells)
    (_hsel : sel = faSelector ∨ sel = mrvSelector)
    (hdims : Dims9 g) (halpha : SubAlpha g) (hconf : NoConflict g)
    (hrun : Backtracking.search n sel g = some (SearchOut.found g')) :
    Grid.is_solved g' = true ∧ unitsOnceB g' = true := by
  obtain ⟨hinv', hsolved⟩ := (Backtracking.search_tryCands_inv sel n).1 g g'
    ⟨hdims, halpha, hconf⟩ hrun
  exact ⟨hsolved, solved_inv_unitsOnce hinv' hsolved⟩

/-- Claim C1 witness: the amended statement applied to a concrete valid
completed grid. -/
theorem C1_witness :
    Grid.is_solved validGrid = true ∧ unitsOnceB validGrid = true :=
  C1_search_solution 1 faSelector validGrid validGrid (Or.inl rfl)
    (by unfold Dims9; decide)
    (by unfold SubAlpha; decide)
    (noConflictB_sound (by decide))
    (by decide)

/-- Claim C6: `Backtracking.search` on a complete grid returns it unchanged
with no branching (fuel 1, hence zero recursive budget, already suffices);
on an incomplete grid with selected cell `var` it scans `var`'s candidate
symbols in the domain's own order, returns the first branch outcome that is
a solution without trying the remaining candidates, and returns the failure
sentinel `0` exactly when every candidate's branch ends in failure. -/
theorem C6_search_control_flow (n : Nat) (sel : Selector) (g : Cells) :
    (Grid.is_solved g = true →
      Backtracking.search 1 sel g = some (SearchOut.found g) ∧
      ∀ m : Nat, Backtracking.search (m + 1) sel g
        = some (SearchOut.found g)) ∧
    (Grid.is_solved g = false → ∀ var : Pos, sel g = some var →
      ((∀ (pre : Dom) (d : Char) (post : Dom) (s : Cells),
          Grid.get_cell g var.1 var.2 = pre ++ d :: post →
          (∀ e ∈ pre, Backtracking.branchRes n sel g var e
            = some SearchOut.failure) →
          Backtracking.branchRes n sel g var d = some (SearchOut.found s) →
          Backtracking.search (n + 1) sel g = some (SearchOut.found s)) ∧
        (Backtracking.search (n + 1) sel g = some SearchOut.failure ↔
          ∀ d ∈ Grid.get_cell g var.1 var.2,
            Backtracking.branchRes n sel g var d
              = some SearchOut.failure))) := by
  constructor
  · intro hsolved
    constructor
    · simp [Backtracking.search, hsolved]
    · intro m
      simp [Backtracking.search, hsolved]
  · intro hunsolved var hvar
    have hstep : Backtracking.search (n + 1) sel g
        = Backtracking.tryCands n sel g var (Grid.get_cell g var.1 var.2) := by
      simp [Backtracking.search, hunsolved, hvar, Backtracking.tryCands]
    constructor
    · intro pre d post s hdecomp hpre hd
      rw [hstep, hdecomp]
      exact Backtracking.tryCands_first_found n sel g var pre d post s hpre hd
    · rw [hstep]
      exact Backtracking.tryCands_failure_iff n sel g var _

/-- Claim C6 witness: the complete all-ones grid is returned unchanged with
fuel 1 (zero branching). -/
theorem C6_witness :
    Grid.is_solved allOnes = true ∧
      Backtracking.search 1 faSelector allOnes
        = some (SearchOut.found allOnes) :=
  ⟨by decide, ((C6_search_control_flow 0 faSelector allOnes).1 (by decide)).1⟩

/-- Claim C7 (counterexample): on a grid holding an empty domain at `(0,0)`
and singletons elsewhere, both selectors return their no-selection result
(`None` for `FirstAvailable`, the `(10, 10)` sentinel for `MRV`) although
the grid is not complete, refuting the "only if the grid is complete"
direction of the claim. -/
theorem C7_counterexample_empty_domain :
    FirstAvailable.select_variable gEmptyCell = none ∧
    MRV.select_variable gEmptyCell = (10, 10) ∧
    Grid.is_solved gEmptyCell = false := by
  refine ⟨?_, ?_, ?_⟩ <;> decide

/-- Claim C7 (amended): on any grid whose scanned domains have at most 9
candidates (true of every grid the engine builds), both selectors return
their no-selection result exactly when no cell has a domain larger than one
— equivalently, when the grid is complete or some domain is empty; and
whenever some cell has a domain larger than one, each selector returns a
position of such a cell. -/
theorem C7_selector_none_characterization (g : Cells)
    (hb : ∀ i : Nat, i < 9 → ∀ j : Nat, j < 9 →
      (Grid.get_cell g i j).length ≤ 9) :
    (FirstAvailable.select_variable g = none ↔
      ∀ i j : Nat, i < 9 → j < 9 → (Grid.get_cell g i j).length ≤ 1) ∧
    (MRV.select_variable g = (10, 10) ↔
      ∀ i j : Nat, i < 9 → j < 9 → (Grid.get_cell g i j).length ≤ 1) ∧
    (∀ i j : Nat, i < 9 → j < 9 → 1 < (Grid.get_cell g i j).length →
      (∃ p : Pos, FirstAvailable.select_variable g = some p ∧ inRange p ∧
        1 < (Grid.get_cell g p.1 p.2).length) ∧
      inRange (MRV.select_variable g) ∧
      1 < (Grid.get_cell g (MRV.select_variable g).1
        (MRV.select_variable g).2).length) := by
  refine ⟨?_, ?_, ?_⟩
  · unfold FirstAvailable.select_variable
    constructor
    · intro hnone i j hi hj
      have hall := List.find?_eq_none.mp hnone (i, j)
        (mem_allPositions.mpr ⟨hi, hj⟩)
      simp only [decide_eq_true_eq] at hall
      omega
    · intro hsmall
      refine List.find?_eq_none.mpr ?_
      intro p hp
      simp only [decide_eq_true_eq]
      have := hsmall p.1 p.2 (mem_allPositions.mp hp).1 (mem_allPositions.mp hp).2
      omega
  · rcases MRV.select_spec g with ⟨heq, hnone⟩ | ⟨p, heq, hr, h1, _, _, _⟩
    · constructor
      · intro _ i j hi hj
        have hnn : ¬(1 < (Grid.get_cell g i j).length ∧
            (Grid.get_cell g i j).length < 10) := hnone (i, j) ⟨hi, hj⟩
        have := hb i hi j hj
        omega
      · intro _
        exact heq
    · constructor
      · intro h1010
        rw [heq] at h1010
        have : p.1 = 10 := congrArg Prod.fst h1010
        have := hr.1
        omega
      · intro hsmall
        have := hsmall p.1 p.2 hr.1 hr.2
        omega
  · intro i j hi hj hbig
    constructor
    · rcases hfa : FirstAvailable.select_variable g with _ | p
      · exfalso
        unfold FirstAvailable.select_variable at hfa
        have hall := List.find?_eq_none.mp hfa (i, j)
          (mem_allPositions.mpr ⟨hi, hj⟩)
        simp only [decide_eq_true_eq] at hall
        omega
      · have hmem := List.mem_of_find?_eq_some hfa
        have hpred := List.find?_some hfa
        simp only [decide_eq_true_eq] at hpred
        exact ⟨p, rfl, mem_allPositions.mp hmem, hpred⟩
    · rcases MRV.select_spec g with ⟨heq, hnone⟩ | ⟨p, heq, hr, h1, _, _, _⟩
      · exfalso
        have hnn : ¬(1 < (Grid.get_cell g i j).length ∧
            (Grid.get_cell g i j).length < 10) := hnone (i, j) ⟨hi, hj⟩
        have := hb i hi j hj
        omega
      · rw [heq]
        exact ⟨hr, h1⟩

/-- Claim C7 witness: the amended characterization applied to a grid with
one unassigned cell. -/
theorem C7_witness :
    (∀ i : Nat, i < 9 → ∀ j : Nat, j < 9 →
      (Grid.get_cell gOneBig i j).length ≤ 9) ∧
    (FirstAvailable.select_variable gOneBig = none ↔
      ∀ i j : Nat, i < 9 → j < 9 → (Grid.get_cell gOneBig i j).length ≤ 1) :=
  ⟨by decide, (C7_selector_none_characterization gOneBig (by decide)).1⟩

/-- Claim C8 (counterexample): an incomplete grid (two empty domains, the
rest singletons) on which `MRV.select_variable` returns the sentinel
`(10, 10)`, which is not a position of a cell of minimal domain size among
the cells with more than one candidate (there is no such cell), refuting
the claim as stated for every incomplete grid. -/
theorem C8_counterexample_sentinel :
    Grid.is_solved gTwoEmpty = false ∧
    MRV.select_variable gTwoEmpty = (10, 10) := by
  refine ⟨?_, ?_⟩ <;> decide

/-- Claim C8 (amended): on any grid whose scanned domains have at most 9
candidates and which has at least one cell with more than one candidate,
`MRV.select_variable` returns a position of such a cell whose domain size is
minimal among all cells with domain size greater than one, and among the
positions attaining that minimum it is the first in row-major scan order. -/
theorem C8_mrv_minimality (g : Cells)
    (hb : ∀ i : Nat, i < 9 → ∀ j : Nat, j < 9 →
      (Grid.get_cell g i j).length ≤ 9)
    (hbig : ∃ i j : Nat, i < 9 ∧ j < 9 ∧ 1 < (Grid.get_cell g i j).length) :
    inRange (MRV.select_variable g) ∧
    1 < (Grid.get_cell g (MRV.select_variable g).1
      (MRV.select_variable g).2).length ∧
    (∀ i j : Nat, i < 9 → j < 9 → 1 < (Grid.get_cell g i j).length →
      (Grid.get_cell g (MRV.select_variable g).1
        (MRV.select_variable g).2).length ≤ (Grid.get_cell g i j).length) ∧
    (∀ i j : Nat, i < 9 → j < 9 → 1 < (Grid.get_cell g i j).length →
      (Grid.get_cell g i j).length =
        (Grid.get_cell g (MRV.select_variable g).1
          (MRV.select_variable g).2).length →
      rmIdx (MRV.select_variable g) ≤ rmIdx (i, j)) := by
  rcases MRV.select_spec g with ⟨heq, hnone⟩ | ⟨p, heq, hr, h1, h10, hmin, htie⟩
  · obtain ⟨i, j, hi, hj, hb1⟩ := hbig
    have := hb i hi j hj
    have hlt : (Grid.get_cell g i j).length < 10 := by omega
    exact absurd ⟨hb1, hlt⟩ (hnone (i, j) ⟨hi, hj⟩)
  · rw [heq]
    refine ⟨hr, h1, ?_, ?_⟩
    · intro i j hi hj h1'
      have := hb i hi j hj
      have h10' : (Grid.get_cell g i j).length < 10 := by omega
      exact hmin (i, j) ⟨hi, hj⟩ h1' h10'
    · intro i j hi hj h1' heqlen
      exact htie (i, j) ⟨hi, hj⟩ h1' heqlen

/-- Claim C8 witness: the amended statement applied to a grid with one
unassigned cell, where MRV selects it. -/
theorem C8_witness :
    ((∀ i : Nat, i < 9 → ∀ j : Nat, j < 9 →
      (Grid.get_cell gOneBig i j).length ≤ 9) ∧
      (∃ i j : Nat, i < 9 ∧ j < 9 ∧
        1 < (Grid.get_cell gOneBig i j).length)) ∧
    (inRange (MRV.select_variable gOneBig) ∧
      1 < (Grid.get_cell gOneBig (MRV.select_variable gOneBig).1
        (MRV.select_variable gOneBig).2).length) :=
  ⟨⟨by decide, ⟨0, 0, by decide, by decide, by decide⟩⟩,
    ⟨(C8_mrv_minimality gOneBig (by decide)
        ⟨0, 0, by decide, by decide, by decide⟩).1,
      (C8_mrv_minimality gOneBig (by decide)
        ⟨0, 0, by decide, by decide, by decide⟩).2.1⟩⟩
